import Mathlib

/-!
Shallow embedding of the campus-connect pathfinding core.

Covered source:
* the `PathfindingTester` A* search (`astarPath`, `getNodeCoordinates`,
  `heuristicDistance`, `calculatePathDistance`);
* the `CompletePathFix` repair pass (`applyAllFixes` and its six fixes,
  `findNearestConnectedNode`, `findNodesWithinRadius`,
  `findBestWaypointBetweenRooms`, `calculateDistance`).

Modelling conventions:
* JavaScript numbers are modelled by `ℝ` (the reasoning here is about exact
  arithmetic; the spec itself describes weights as non-negative reals), and
  the `Infinity` sentinel of the score maps by `⊤` in `WithTop ℝ`
  (`Infinity + w = Infinity` matches `⊤ + w = ⊤`).
* JavaScript objects are insertion-ordered association lists; property reads
  are first-match lookups and property writes overwrite the first binding in
  place or append a fresh one, exactly as JS key order behaves for the
  string keys this data uses.
* A JS `Set` is a duplicate-free insertion-ordered list: iteration follows
  insertion order, which is what the open-set minimum scan relies on.
* The two unbounded `while` loops (the search loop and the path
  reconstruction walk) are given explicit fuel `graphSize g + 1`; lemmas
  below establish the invariants needed by each claim independently of
  whether the fuel runs out, and for terminating runs the fuel is shown
  sufficient.
-/

open scoped Classical

noncomputable section

namespace CampusConnect

/-- A campus node as loaded from the floor data: `{id, x, y, label, type,
searchable}`. -/
structure CNode where
  id : String
  x : ℝ
  y : ℝ
  label : String
  type : String
  searchable : Bool

/-- A 2D coordinate pair, the shape returned by `getNodeCoordinates`. -/
structure Coord where
  x : ℝ
  y : ℝ

/-- One node's neighbor map: insertion-ordered association list of
`neighborId ↦ weight`. -/
abbrev Adj := List (String × ℝ)

/-- The adjacency structure `campusGraph`: insertion-ordered association list
of `nodeId ↦ neighbor map`. -/
abbrev CGraph := List (String × Adj)

/-- JS property read `l[k]`: the first binding of key `k`, if any. -/
def assocFind {α : Type} (l : List (String × α)) (k : String) : Option α :=
  (l.find? (fun p => p.1 == k)).map Prod.snd

/-- JS property write `l[k] = v`: overwrite the first binding of `k` in place,
else append a new binding at the end (JS objects keep insertion order). -/
def assocSet {α : Type} (l : List (String × α)) (k : String) (v : α) :
    List (String × α) :=
  match l with
  | [] => [(k, v)]
  | p :: rest => if p.1 = k then (k, v) :: rest else p :: assocSet rest k v

/-- The directed adjacency entry `graph[a][b]`, if both levels exist. -/
def edgeWeight (g : CGraph) (a b : String) : Option ℝ :=
  (assocFind g a).bind (fun adj => assocFind adj b)

/-- JS falsiness of a numeric property read: the property is absent or its
value is `0` (`!graph[a][b]`). -/
def falsyWeight (w : Option ℝ) : Prop :=
  w = none ∨ w = some 0

/-- JS `if (!graph[k]) graph[k] = {}`: create an empty neighbor map for `k`
unless an entry (even an empty one, which is truthy) already exists. -/
def graphEnsure (g : CGraph) (k : String) : CGraph :=
  if (assocFind g k).isSome then g else g ++ [(k, [])]

/-- JS `graph[a][b] = w` on the two-level structure: update the first entry of
`a` in place. When `a` has no entry the JS would throw a `TypeError`; the model
leaves the graph unchanged there (every modelled call site except
`fixRoom310To305`'s write to `room305` ensures the entry first). -/
def graphSet (g : CGraph) (a b : String) (w : ℝ) : CGraph :=
  match g with
  | [] => []
  | kv :: rest =>
    if kv.1 = a then (kv.1, assocSet kv.2 b w) :: rest else kv :: graphSet rest a b w

/-! ## The A* search of `PathfindingTester` (part_009) -/

/-- Source `getNodeCoordinates`: coordinates of the first node in
`campusNodes` with the given id, else `null`. -/
def getNodeCoordinates (nodes : List CNode) (nodeId : String) : Option Coord :=
  (nodes.find? (fun n => n.id == nodeId)).map (fun n => ⟨n.x, n.y⟩)

/-- Source `heuristicDistance`: the Euclidean distance
`Math.sqrt(dx*dx + dy*dy)` between two coordinate pairs. -/
def heuristicDistance (c1 c2 : Coord) : ℝ :=
  Real.sqrt ((c2.x - c1.x) * (c2.x - c1.x) + (c2.y - c1.y) * (c2.y - c1.y))

/-- Source `calculatePathDistance`: sum of straight-line distances between the
consecutive resolvable nodes of a path. -/
def calculatePathDistance (nodes : List CNode) : List String → ℝ
  | [] => 0
  | [_] => 0
  | a :: b :: rest =>
    (match getNodeCoordinates nodes a, getNodeCoordinates nodes b with
      | some ca, some cb => heuristicDistance ca cb
      | _, _ => 0) + calculatePathDistance nodes (b :: rest)

/-- The mutable search state of one `astarPath` call: the `gScore`, `fScore`
and `previous` maps (total functions, `⊤` / `none` standing for the
uninitialized reads, which behave identically to `Infinity` / absent in every
reachable comparison), and the open and closed sets in insertion order. -/
structure AState where
  gScore : String → WithTop ℝ
  fScore : String → WithTop ℝ
  previous : String → Option String
  openL : List String
  closedL : List String

/-- The open-set minimum scan of `astarPath`: fold in insertion order keeping
the first node whose `fScore` is strictly below the running minimum, starting
from `Infinity`. The first-inserted node therefore wins all ties. -/
def scanMin (f : String → WithTop ℝ) (l : List String) :
    Option String × WithTop ℝ :=
  l.foldl (fun acc node => if f node < acc.2 then (some node, f node) else acc)
    (none, ⊤)

/-- The joint `previous`/`gScore`/`fScore` update performed when a neighbor is
relaxed; `fScore` is only written when the neighbor's coordinates resolve,
exactly as in the source. -/
def updateNeighbor (nodes : List CNode) (endCoords : Coord) (cur nb : String)
    (tg : WithTop ℝ) (st : AState) : AState :=
  { st with
    previous := fun v => if v = nb then some cur else st.previous v
    gScore := fun v => if v = nb then tg else st.gScore v
    fScore :=
      match getNodeCoordinates nodes nb with
      | some nc =>
        fun v =>
          if v = nb then tg + ((heuristicDistance nc endCoords : ℝ) : WithTop ℝ)
          else st.fScore v
      | none => st.fScore }

/-- One iteration of the neighbor loop: skip closed neighbors; insert unseen
neighbors into the open set and relax them unconditionally; relax open
neighbors only on strict improvement (`tentativeGScore >= gScore[neighbor]`
skips). -/
def processNeighbor (nodes : List CNode) (endCoords : Coord) (cur : String)
    (st : AState) (edge : String × ℝ) : AState :=
  if edge.1 ∈ st.closedL then st
  else if edge.1 ∈ st.openL then
    if st.gScore edge.1 ≤ st.gScore cur + ((edge.2 : ℝ) : WithTop ℝ) then st
    else updateNeighbor nodes endCoords cur edge.1
      (st.gScore cur + ((edge.2 : ℝ) : WithTop ℝ)) st
  else updateNeighbor nodes endCoords cur edge.1
    (st.gScore cur + ((edge.2 : ℝ) : WithTop ℝ))
    { st with openL := st.openL ++ [edge.1] }

/-- The body run for a selected `current ≠ end`: move it from the open to the
closed set, then fold the neighbor loop over `campusGraph[current] || {}` in
insertion order. -/
def astarStep (graph : CGraph) (nodes : List CNode) (endCoords : Coord)
    (cur : String) (st : AState) : AState :=
  ((assocFind graph cur).getD []).foldl (processNeighbor nodes endCoords cur)
    { st with openL := st.openL.erase cur, closedL := cur :: st.closedL }

/-- The `while (openSet.size > 0)` loop of `astarPath`, returning the
`previous` map it ends with: stop when the open set empties, when the scan
selects nothing (`current === null`), or when the end node is selected. -/
def astarLoop (graph : CGraph) (nodes : List CNode) (endId : String)
    (endCoords : Coord) : Nat → AState → String → Option String
  | 0, st => st.previous
  | fuel + 1, st =>
    if st.openL.isEmpty then st.previous
    else
      match (scanMin st.fScore st.openL).1 with
      | none => st.previous
      | some cur =>
        if cur = endId then st.previous
        else astarLoop graph nodes endId endCoords fuel
          (astarStep graph nodes endCoords cur st)

/-- The reconstruction walk `while (current !== null)` of `astarPath`,
following `previous` links back from a node and listing the chain in
start-to-end order. -/
def reconstructPath (previous : String → Option String) :
    Nat → String → List String
  | 0, cur => [cur]
  | fuel + 1, cur =>
    match previous cur with
    | none => [cur]
    | some u => reconstructPath previous fuel u ++ [cur]

/-- Fuel bound for the two loops: the number of adjacency entries plus the
number of neighbor entries dominates the number of distinct nodes the search
can ever touch. -/
def graphSize (graph : CGraph) : Nat :=
  graph.length + (graph.map (fun kv => kv.2.length)).sum

/-- The search state after the initialization block of `astarPath`: every
score `Infinity` except `gScore[start] = 0` and
`fScore[start] = h(start, end)`, all `previous` links `null`, the open set
holding exactly the start node. -/
def initialState (startId : String) (h0 : ℝ) : AState :=
  { gScore := fun v => if v = startId then (0 : WithTop ℝ) else ⊤
    fScore := fun v => if v = startId then ((h0 : ℝ) : WithTop ℝ) else ⊤
    previous := fun _ => none
    openL := [startId]
    closedL := [] }

/-- Source `astarPath(start, end)`: `null` when either endpoint fails to
resolve coordinates or has no adjacency entry; otherwise run the search loop,
rebuild the `previous` chain from the end node, and return it only when it has
more than one element and starts at the start node. -/
def astarPath (nodes : List CNode) (graph : CGraph) (startId endId : String) :
    Option (List String) :=
  match getNodeCoordinates nodes endId, getNodeCoordinates nodes startId with
  | some endCoords, some startCoords =>
    if (assocFind graph startId).isNone ∨ (assocFind graph endId).isNone then
      none
    else
      let previous := astarLoop graph nodes endId endCoords (graphSize graph + 1)
        (initialState startId (heuristicDistance startCoords endCoords))
      let path := reconstructPath previous (graphSize graph + 1) endId
      if 1 < path.length ∧ path.head? = some startId then some path else none
  | _, _ => none

/-! ## Paths, costs and reachability over the adjacency structure -/

/-- Consecutive elements of the list are joined by directed adjacency
entries. -/
def ChainedIn (g : CGraph) : List String → Prop
  | [] => True
  | [_] => True
  | a :: b :: rest => (edgeWeight g a b).isSome ∧ ChainedIn g (b :: rest)

/-- An (ordered, inclusive) route from `s` to `t` through existing directed
edges of `g`; `[s]` itself is the trivial route when `s = t`. -/
def IsPath (g : CGraph) (s t : String) (p : List String) : Prop :=
  p.head? = some s ∧ p.getLast? = some t ∧ ChainedIn g p

/-- Total cost of a route: the sum of the traversed directed edge weights. -/
def pathCost (g : CGraph) : List String → ℝ
  | [] => 0
  | [_] => 0
  | a :: b :: rest => (edgeWeight g a b).getD 0 + pathCost g (b :: rest)

/-- `t` can be reached from `s` through directed adjacency entries of `g`. -/
inductive Reachable (g : CGraph) (s : String) : String → Prop
  | refl : Reachable g s s
  | step {b c : String} : Reachable g s b → (edgeWeight g b c).isSome →
      Reachable g s c

/-! ## The repair pass of `CompletePathFix` (part_003) -/

/-- The ambient repair-pass state: `window.campusNodes` and
`window.campusGraph`. -/
structure Env where
  nodes : List CNode
  graph : CGraph

/-- Source `calculateDistance`: Euclidean distance via `Math.pow(_, 2)`. -/
def calculateDistance (n1 n2 : CNode) : ℝ :=
  Real.sqrt ((n2.x - n1.x) ^ 2 + (n2.y - n1.y) ^ 2)

/-- Source `isIsolated` reading `!graph[id] || Object.keys(graph[id]).length
=== 0`: no adjacency entry, or an empty one. -/
def isIsolated (g : CGraph) (id : String) : Prop :=
  assocFind g id = none ∨ assocFind g id = some []

/-- The candidate filter of `findNearestConnectedNode`: a different id whose
adjacency entry exists and is non-empty. -/
def connectedCandidate (g : CGraph) (target node : CNode) : Prop :=
  node.id ≠ target.id ∧ ∃ adj, assocFind g node.id = some adj ∧ adj ≠ []

/-- Source `findNearestConnectedNode`: scan `campusNodes` in order keeping the
first candidate at strictly smaller Euclidean distance than the running
minimum (initially `Infinity`); ties are kept by the first-seen node. -/
def findNearestConnectedNode (env : Env) (target : CNode) : Option CNode :=
  (env.nodes.foldl
    (fun acc node =>
      if connectedCandidate env.graph target node ∧
          ((calculateDistance target node : ℝ) : WithTop ℝ) < acc.2 then
        (some node, ((calculateDistance target node : ℝ) : WithTop ℝ))
      else acc)
    ((none : Option CNode), (⊤ : WithTop ℝ))).1

/-- Source `findNodesWithinRadius`: the nodes other than the center within the
given Euclidean radius, in list order. -/
def findNodesWithinRadius (nodes : List CNode) (center : CNode) (radius : ℝ) :
    List CNode :=
  nodes.filter (fun node =>
    decide (node.id ≠ center.id ∧ calculateDistance center node ≤ radius))

/-- The loop body of `fixRoomConnections` for one classroom: when its
adjacency entry is missing or empty, look up the nearest connected node in
the current graph and, when one exists, ensure both entries and insert the
bidirectional edge with weight equal to their Euclidean distance. -/
def fixRoomStep (e : Env) (c : CNode) : Env :=
  if isIsolated e.graph c.id then
    match findNearestConnectedNode e c with
    | some nearest =>
      { e with graph :=
          (graphSet
            (graphSet (graphEnsure (graphEnsure e.graph c.id) nearest.id)
              c.id nearest.id (calculateDistance c nearest))
            nearest.id c.id (calculateDistance c nearest)) }
    | none => e
  else e

/-- Source `fixRoomConnections`: the classroom list is computed once from the
node list, then processed in order. -/
def fixRoomConnections (env : Env) : Env :=
  (env.nodes.filter (fun n => n.type == ("class"))).foldl fixRoomStep env

/-- The inner loop body of `fixHubConnections` for one hub and one nearby
node: skip same-id and `invisible` targets, ensure both adjacency entries,
and insert the bidirectional Euclidean-weighted edge only when the
hub-to-neighbor entry is absent or falsy. -/
def fixHubStep (hub : CNode) (e2 : Env) (nb : CNode) : Env :=
  if nb.id ≠ hub.id ∧ nb.type ≠ ("invisible") then
    if falsyWeight (edgeWeight (graphEnsure (graphEnsure e2.graph hub.id) nb.id)
        hub.id nb.id) then
      { e2 with graph :=
          (graphSet
            (graphSet (graphEnsure (graphEnsure e2.graph hub.id) nb.id)
              hub.id nb.id (calculateDistance hub nb))
            nb.id hub.id (calculateDistance hub nb)) }
    else { e2 with graph := graphEnsure (graphEnsure e2.graph hub.id) nb.id }
  else e2

/-- Source `fixHubConnections`: for each node of type `intersection`, fold the
inner body over the nodes within radius 150. -/
def fixHubConnections (env : Env) : Env :=
  (env.nodes.filter (fun n => n.type == ("intersection"))).foldl
    (fun e hub => (findNodesWithinRadius e.nodes hub 150).foldl (fixHubStep hub) e)
    env

/-- The main application's `window.astarPath(graph, nodes, start, end)` that
`CompletePathFix.findPath` delegates to is not among the repository's source
files (only its callers are); the repair pass is parametrized by it, with
`fun _ _ _ _ => none` also covering a page where it is undefined (`findPath`
then returns `null`). Every repair theorem below holds for all such
pathfinders. -/
abbrev Pathfinder := CGraph → List CNode → String → String → Option (List String)

/-- Source `findPath` of `CompletePathFix`: delegate to the ambient
pathfinder. -/
def findPath (fp : Pathfinder) (e : Env) (s t : String) : Option (List String) :=
  fp e.graph e.nodes s t

/-- The character list `pat` is a prefix of the character list `s`. -/
def charsStartWith : List Char → List Char → Bool
  | _, [] => true
  | [], _ :: _ => false
  | c :: s, p :: ps => c == p && charsStartWith s ps

/-- The character list `pat` occurs contiguously inside `s`. -/
def charsInclude : List Char → List Char → Bool
  | [], pat => charsStartWith [] pat
  | c :: t, pat => charsStartWith (c :: t) pat || charsInclude t pat

/-- JS `s.includes(pat)`: substring containment. -/
def strIncludes (s pat : String) : Bool :=
  charsInclude s.data pat.data

/-- Source `findBestWaypointBetweenRooms`: the first node of type
`intersection` or `invisible` at strictly minimal Euclidean distance to the
midpoint of the two rooms. -/
def findBestWaypointBetweenRooms (nodes : List CNode) (room1 room2 : CNode) :
    Option CNode :=
  (nodes.foldl
    (fun acc node =>
      if (node.type = ("intersection") ∨ node.type = ("invisible")) ∧
          ((Real.sqrt ((node.x - (room1.x + room2.x) / 2) ^ 2 +
            (node.y - (room1.y + room2.y) / 2) ^ 2) : ℝ) : WithTop ℝ) < acc.2 then
        (some node,
          ((Real.sqrt ((node.x - (room1.x + room2.x) / 2) ^ 2 +
            (node.y - (room1.y + room2.y) / 2) ^ 2) : ℝ) : WithTop ℝ))
      else acc)
    ((none : Option CNode), (⊤ : WithTop ℝ))).1

/-- Source `fixRoom310To305`: when both rooms resolve (by id or label
substring) and the current pathfinder reports no path, connect both rooms
bidirectionally to the best waypoint between them. The final write to
`graph[room305.id]` is not preceded by an ensure in the source; when that
entry is missing the JS throws and the model leaves it unchanged. -/
def fixRoom310To305 (fp : Pathfinder) (env : Env) : Env :=
  match env.nodes.find? (fun n => n.id == ("room_310") || strIncludes n.label ("310")),
      env.nodes.find? (fun n => n.id == ("room_305") || strIncludes n.label ("305")) with
  | some room310, some room305 =>
    if findPath fp env room310.id room305.id = none ∨
        findPath fp env room310.id room305.id = some [] then
      match findBestWaypointBetweenRooms env.nodes room310 room305 with
      | some waypoint =>
        { env with graph :=
            (graphSet
              (graphSet
                (graphSet
                  (graphSet (graphEnsure (graphEnsure env.graph room310.id) waypoint.id)
                    room310.id waypoint.id (calculateDistance room310 waypoint))
                  waypoint.id room310.id (calculateDistance room310 waypoint))
                waypoint.id room305.id (calculateDistance waypoint room305))
              room305.id waypoint.id (calculateDistance waypoint room305)) }
      | none => env
    else env
  | _, _ => env

/-- The `Main Hub 4` node that `fixRoom314ToHub4` synthesizes next to room 314
when no hub-4 node exists. -/
def hub4Default (room314 : CNode) : CNode :=
  { id := ("main_hub_4"), x := room314.x + 50, y := room314.y - 30,
    label := ("Main Hub 4"), type := ("intersection"), searchable := false }

/-- Source `fixRoom314ToHub4`: when a room-314 node resolves, find a hub-4
node (by ids or label substring), create `Main Hub 4` next to room 314 when
none exists, and insert the bidirectional Euclidean-weighted edge between
them. In the source, the target hub of the missing-hub branch is re-read
with `campusNodes.find(n => n.id === 'main_hub_4')` after the push; since
the hub search already covered that id and found nothing, this lookup
necessarily returns the just-pushed node, which the model uses directly. -/
def fixRoom314ToHub4 (env : Env) : Env :=
  match env.nodes.find? (fun n =>
      n.id == ("room_314") || strIncludes n.label ("314") || n.id == ("class_314")) with
  | none => env
  | some room314 =>
    match env.nodes.find? (fun n =>
        n.id == ("main_hub_4") || n.id == ("hub_4") || strIncludes n.label ("Hub 4")) with
    | some h4 =>
      { env with graph :=
          (graphSet
            (graphSet (graphEnsure (graphEnsure env.graph room314.id) h4.id)
              room314.id h4.id (calculateDistance room314 h4))
            h4.id room314.id (calculateDistance room314 h4)) }
    | none =>
      { nodes := env.nodes ++ [hub4Default room314],
        graph :=
          (graphSet
            (graphSet (graphEnsure (graphEnsure env.graph room314.id)
                (hub4Default room314).id)
              room314.id (hub4Default room314).id
              (calculateDistance room314 (hub4Default room314)))
            (hub4Default room314).id room314.id
            (calculateDistance room314 (hub4Default room314))) }

/-- Source `fixCoordinateTransformations`: registers a window-level display
helper; it mutates neither `campusNodes` nor `campusGraph`. -/
def fixCoordinateTransformations (env : Env) : Env :=
  env

/-- The bidirectional check of `validateGraphIntegrity`: the directed entries
`a→b` whose reverse read `graph[b][a]` is absent or falsy. The source only
reports these as issues; it inserts nothing. -/
def bidirectionalIssues (g : CGraph) : List (String × String) :=
  g.flatMap (fun kv =>
    (kv.2.filter (fun e => decide (falsyWeight (edgeWeight g e.1 kv.1)))).map
      (fun e => (kv.1, e.1)))

/-- Source `validateGraphIntegrity`: computes validation reports (including
`bidirectionalIssues`) and mutates neither `campusNodes` nor `campusGraph`. -/
def validateGraphIntegrity (env : Env) : Env :=
  env

/-- Source `applyAllFixes`: the six fixes in order — room connections, hub
connections, room 310→305, room 314→hub 4, coordinate transformations,
integrity validation. -/
def applyAllFixes (fp : Pathfinder) (env : Env) : Env :=
  validateGraphIntegrity (fixCoordinateTransformations (fixRoom314ToHub4
    (fixRoom310To305 fp (fixHubConnections (fixRoomConnections env)))))

/-! ## Concrete instances used by witnesses and counterexamples -/

/-- A class node at the origin. -/
def nodeA : CNode :=
  { id := ("A"), x := 0, y := 0, label := ("a"), type := ("class"), searchable := true }

/-- A class node at `(3, 4)`, Euclidean distance 5 from `nodeA`. -/
def nodeB : CNode :=
  { id := ("B"), x := 3, y := 4, label := ("b"), type := ("class"), searchable := true }

/-- A single-node environment node list. -/
def exNodesSelf : List CNode := [nodeA]

/-- A single-node graph with an (empty) adjacency entry for `A`. -/
def exGraphSelf : CGraph := [(("A"), [])]

/-- Node list of the two-node instances. -/
def exNodesTwo : List CNode := [nodeA, nodeB]

/-- Two nodes, both present in the graph, with no edges at all. -/
def exGraphTwo : CGraph := [(("A"), []), (("B"), [])]

/-- Two nodes joined by the bidirectional edge `A — B` of weight 5 (equal to
their Euclidean distance, hence admissible). -/
def exGraphEdge : CGraph :=
  [(("A"), [(("B"), 5)]), (("B"), [(("A"), 5)])]

/-- An ambient pathfinder that always reports no path — also the behavior of
`CompletePathFix.findPath` on a page where `window.astarPath` is undefined. -/
def fpNone : Pathfinder :=
  fun _ _ _ _ => none

/-- An intersection node at the origin. -/
def nodeH : CNode :=
  { id := ("H"), x := 0, y := 0, label := ("h"), type := ("intersection"),
    searchable := false }

/-- A stairway node at `(90, 120)` — Euclidean distance 150 from `nodeH`. -/
def nodeX : CNode :=
  { id := ("X"), x := 90, y := 120, label := ("x"), type := ("stairway"),
    searchable := false }

/-- A class node at `(300, 400)` — distance 500 from `nodeH` and 350 from
`nodeX`. -/
def nodeC : CNode :=
  { id := ("C"), x := 300, y := 400, label := ("c"), type := ("class"),
    searchable := true }

/-- Repair instance with an initially empty adjacency structure: an isolated
hub, an isolated stairway within the hub radius, and a distant isolated
classroom. -/
def envHXC : Env :=
  { nodes := [nodeH, nodeX, nodeC], graph := [] }

/-- An isolated searchable stairway node. -/
def nodeS : CNode :=
  { id := ("S"), x := 0, y := 0, label := ("s"), type := ("stairway"),
    searchable := true }

/-- A connected corridor waypoint. -/
def nodeP : CNode :=
  { id := ("P"), x := 10, y := 0, label := ("p"), type := ("invisible"),
    searchable := false }

/-- The other end of the connected corridor pair. -/
def nodeQ : CNode :=
  { id := ("Q"), x := 20, y := 0, label := ("q"), type := ("invisible"),
    searchable := false }

/-- Repair instance in which a searchable stairway node is isolated while a
connected pair of waypoints exists. -/
def envSPQ : Env :=
  { nodes := [nodeS, nodeP, nodeQ],
    graph := [(("P"), [(("Q"), 10)]), (("Q"), [(("P"), 10)])] }

/-- Repair instance with a one-sided directed edge between two stairway
nodes (no classes, no hubs): nothing in the pass touches it. -/
def envOneSided : Env :=
  { nodes := [nodeS, nodeX], graph := [(("S"), [(("X"), 7)])] }

/-- The empty repair environment. -/
def envEmpty : Env :=
  { nodes := [], graph := [] }

/-- The state `applyAllFixes` produces from `envHXC` in one run: the hub pass
has joined `H` and `X` (distance 150); the classroom `C` stayed isolated
because no connected candidate existed when it was processed. -/
def envRun1 : Env :=
  { nodes := [nodeH, nodeX, nodeC],
    graph := [(("H"), [(("X"), 150)]), (("X"), [(("H"), 150)])] }

/-- The state a second run produces from `envRun1`: the room pass now finds
`X` connected and joins `C` to it (distance 350). -/
def envRun2 : Env :=
  { nodes := [nodeH, nodeX, nodeC],
    graph := [(("H"), [(("X"), 150)]),
      (("X"), [(("H"), 150), (("C"), 350)]),
      (("C"), [(("X"), 350)])] }

/-! ## Invariants and relations stated over the embedding -/

/-- Every `previous` link recorded by the search follows an existing directed
edge of the graph. -/
def PrevEdges (graph : CGraph) (previous : String → Option String) : Prop :=
  ∀ v u, previous v = some u → (edgeWeight graph u v).isSome

/-- Every open node, and every node holding a `previous` link, has been
reached from the start node through graph edges. -/
def ReachInv (graph : CGraph) (s : String) (st : AState) : Prop :=
  (∀ v ∈ st.openL, Reachable graph s v) ∧
  (∀ v u, st.previous v = some u → Reachable graph s v)

/-- Every ordered node pair is either left with both of its directed entries
exactly as they were, or carries equal finite entries in both directions:
edges the pass inserts are inserted bidirectionally with equal weight, and
pre-existing pairs it skips are untouched. -/
def SymmetricOrUntouched (g0 g1 : CGraph) : Prop :=
  ∀ a b, (edgeWeight g1 a b = edgeWeight g0 a b ∧ edgeWeight g1 b a = edgeWeight g0 b a) ∨
    (edgeWeight g1 a b ≠ none ∧ edgeWeight g1 a b = edgeWeight g1 b a)

/-- The second environment keeps every node of the first (appending at most
new ones), every adjacency entry, and every directed edge. -/
def GraphGrows (e0 e1 : Env) : Prop :=
  (∃ tail, e1.nodes = e0.nodes ++ tail) ∧
  (∀ k, (assocFind e0.graph k).isSome → (assocFind e1.graph k).isSome) ∧
  (∀ a b, (edgeWeight e0.graph a b).isSome → (edgeWeight e1.graph a b).isSome)

/-- The runs on which the source `fixRoom310To305` completes instead of
throwing: when both rooms resolve, the pathfinder reports no path and a
waypoint is selected, the write target `graph[room305.id]` must already have
an adjacency entry (the source ensures the entries of room 310 and of the
waypoint, but not of room 305). -/
def fix310Completes (fp : Pathfinder) (env : Env) : Prop :=
  ∀ room310 room305 waypoint,
    env.nodes.find? (fun n => n.id == ("room_310") || strIncludes n.label ("310")) =
      some room310 →
    env.nodes.find? (fun n => n.id == ("room_305") || strIncludes n.label ("305")) =
      some room305 →
    (findPath fp env room310.id room305.id = none ∨
      findPath fp env room310.id room305.id = some []) →
    findBestWaypointBetweenRooms env.nodes room310 room305 = some waypoint →
    (assocFind env.graph room305.id).isSome

/-- An id the search can ever touch: a key of the adjacency structure, or a
neighbor id listed in some entry. -/
def MentionedId (g : CGraph) (id : String) : Prop :=
  (assocFind g id).isSome ∨
    ∃ cur adj w, assocFind g cur = some adj ∧ (id, w) ∈ adj

/-- Every neighbor map has pairwise distinct keys — automatic for JS objects,
a hypothesis for the association-list model. -/
def AdjNodup (g : CGraph) : Prop :=
  ∀ a adj, assocFind g a = some adj → (adj.map Prod.fst).Nodup

/-- Every id the graph mentions resolves coordinates. -/
def CoordsTotal (nodes : List CNode) (g : CGraph) : Prop :=
  ∀ id, MentionedId g id → (getNodeCoordinates nodes id).isSome

/-- Every listed edge weight dominates the straight-line distance between its
endpoints' positions — the admissibility premise of the claim. -/
def Admissible (nodes : List CNode) (g : CGraph) : Prop :=
  ∀ a adj, assocFind g a = some adj → ∀ e ∈ adj, ∀ ca ce,
    getNodeCoordinates nodes a = some ca → getNodeCoordinates nodes e.1 = some ce →
    heuristicDistance ca ce ≤ e.2

/-- The heuristic value the search associates to an id (its node's straight
line distance to the end coordinates; the default is never consulted for
mentioned ids under `CoordsTotal`). -/
def hEst (nodes : List CNode) (endCoords : Coord) (id : String) : ℝ :=
  heuristicDistance ((getNodeCoordinates nodes id).getD ⟨0, 0⟩) endCoords

/-- All ids the graph mentions, with multiplicity: the keys and every
neighbor id; its length is `graphSize`. -/
def mentionedList (g : CGraph) : List String :=
  g.map Prod.fst ++ g.flatMap (fun kv => kv.2.map Prod.fst)

/-- The search-loop invariant behind the optimality proof: facts about the
open and closed sets, the score maps, and the `previous` links that every
iteration of `astarPath`'s loop preserves. -/
structure AInv (nodes : List CNode) (graph : CGraph) (startId endId : String)
    (endCoords : Coord) (st : AState) : Prop where
  open_mentioned : ∀ v ∈ st.openL, MentionedId graph v
  closed_mentioned : ∀ v ∈ st.closedL, MentionedId graph v
  open_nodup : st.openL.Nodup
  closed_nodup : st.closedL.Nodup
  open_closed : ∀ v ∈ st.openL, v ∉ st.closedL
  end_not_closed : endId ∉ st.closedL
  prev_start : st.previous startId = none
  g_start : st.gScore startId = (0 : WithTop ℝ)
  start_mem : startId ∈ st.closedL ∨ st.openL = [startId]
  g_open : ∀ v ∈ st.openL, ∃ p, IsPath graph startId v p ∧
    st.gScore v = ((pathCost graph p : ℝ) : WithTop ℝ)
  g_closed : ∀ v ∈ st.closedL, ∃ p, IsPath graph startId v p ∧
    st.gScore v = ((pathCost graph p : ℝ) : WithTop ℝ)
  g_closed_opt : ∀ v ∈ st.closedL, ∀ q, IsPath graph startId v q →
    st.gScore v ≤ ((pathCost graph q : ℝ) : WithTop ℝ)
  f_open : ∀ v ∈ st.openL, st.fScore v =
    st.gScore v + ((hEst nodes endCoords v : ℝ) : WithTop ℝ)
  frontier : ∀ u ∈ st.closedL, ∀ adj, assocFind graph u = some adj →
    ∀ e ∈ adj, e.1 ∉ st.closedL →
      e.1 ∈ st.openL ∧ st.gScore e.1 ≤ st.gScore u + ((e.2 : ℝ) : WithTop ℝ)
  prev_g : ∀ v u, st.previous v = some u → u ∈ st.closedL ∧
    ∃ w, edgeWeight graph u v = some w ∧
      st.gScore v = st.gScore u + ((w : ℝ) : WithTop ℝ)
  prev_order : ∀ v u, st.previous v = some u →
    ∀ l1 l2, st.closedL = l1 ++ v :: l2 → u ∈ l2
  prev_some_open : ∀ v ∈ st.openL, v ≠ startId → st.previous v ≠ none
  prev_some_closed : ∀ v ∈ st.closedL, v ≠ startId → st.previous v ≠ none

/-- The invariant in the middle of one node expansion: `cur` has just been
closed and the adjacency entries still in `rem` await processing; the
frontier condition is split between older closed nodes (fully established)
and `cur` (established for the entries already processed). -/
structure AMid (nodes : List CNode) (graph : CGraph) (startId endId : String)
    (endCoords : Coord) (cur : String) (adj : Adj) (rem : List (String × ℝ))
    (st : AState) : Prop where
  open_mentioned : ∀ v ∈ st.openL, MentionedId graph v
  closed_mentioned : ∀ v ∈ st.closedL, MentionedId graph v
  open_nodup : st.openL.Nodup
  closed_nodup : st.closedL.Nodup
  open_closed : ∀ v ∈ st.openL, v ∉ st.closedL
  end_not_closed : endId ∉ st.closedL
  prev_start : st.previous startId = none
  g_start : st.gScore startId = (0 : WithTop ℝ)
  start_closed : startId ∈ st.closedL
  cur_closed : cur ∈ st.closedL
  cur_adj : assocFind graph cur = some adj
  g_open : ∀ v ∈ st.openL, ∃ p, IsPath graph startId v p ∧
    st.gScore v = ((pathCost graph p : ℝ) : WithTop ℝ)
  g_closed : ∀ v ∈ st.closedL, ∃ p, IsPath graph startId v p ∧
    st.gScore v = ((pathCost graph p : ℝ) : WithTop ℝ)
  g_closed_opt : ∀ v ∈ st.closedL, ∀ q, IsPath graph startId v q →
    st.gScore v ≤ ((pathCost graph q : ℝ) : WithTop ℝ)
  f_open : ∀ v ∈ st.openL, st.fScore v =
    st.gScore v + ((hEst nodes endCoords v : ℝ) : WithTop ℝ)
  frontier_old : ∀ u ∈ st.closedL, u ≠ cur → ∀ adjx,
    assocFind graph u = some adjx → ∀ e ∈ adjx, e.1 ∉ st.closedL →
      e.1 ∈ st.openL ∧ st.gScore e.1 ≤ st.gScore u + ((e.2 : ℝ) : WithTop ℝ)
  frontier_cur : ∀ e ∈ adj, e ∉ rem → e.1 ∉ st.closedL →
    e.1 ∈ st.openL ∧ st.gScore e.1 ≤ st.gScore cur + ((e.2 : ℝ) : WithTop ℝ)
  prev_g : ∀ v u, st.previous v = some u → u ∈ st.closedL ∧
    ∃ w, edgeWeight graph u v = some w ∧
      st.gScore v = st.gScore u + ((w : ℝ) : WithTop ℝ)
  prev_order : ∀ v u, st.previous v = some u →
    ∀ l1 l2, st.closedL = l1 ++ v :: l2 → u ∈ l2
  prev_some_open : ∀ v ∈ st.openL, v ≠ startId → st.previous v ≠ none
  prev_some_closed : ∀ v ∈ st.closedL, v ≠ startId → st.previous v ≠ none

/-! ## Basic lookup and evaluation lemmas -/

@[simp]
theorem assocFind_nil {α : Type} (k : String) :
    assocFind ([] : List (String × α)) k = none :=
  rfl

@[simp]
theorem assocFind_cons {α : Type} (a : String) (v : α) (l : List (String × α))
    (k : String) :
    assocFind ((a, v) :: l) k = if a = k then some v else assocFind l k := by
  by_cases h : a = k
  · have hb : (a == k) = true := beq_iff_eq.mpr h
    simp [assocFind, List.find?, hb, h]
  · have hb : (a == k) = false := beq_eq_false_iff_ne.mpr h
    simp [assocFind, List.find?, hb, h]

/-- Helper for evaluating the square roots arising from concrete instances. -/
theorem sqrt_eval {a b : ℝ} (h : a = b ^ 2) (hb : 0 ≤ b) : Real.sqrt a = b := by
  rw [h]
  exact Real.sqrt_sq hb

/-- The loop returns its `previous` map untouched whenever the start node is
also the end node: the very first scan selects it and the `current === end`
break fires before any neighbor is relaxed. -/
theorem astarLoop_start_eq_end (graph : CGraph) (nodes : List CNode)
    (x : String) (c : Coord) (h0 : ℝ) (fuel : Nat) :
    astarLoop graph nodes x c (fuel + 1) (initialState x h0) = fun _ => none := by
  simp [astarLoop, initialState, scanMin]

/-- Same-node queries fall through to the reconstruction guard: the rebuilt
chain is `[x]`, whose length-1 check fails, so the call returns `null`. -/
theorem astarPath_self (nodes : List CNode) (graph : CGraph) (x : String)
    (hc : (getNodeCoordinates nodes x).isSome)
    (hg : (assocFind graph x).isSome) :
    astarPath nodes graph x x = none := by
  obtain ⟨c, hc2⟩ := Option.isSome_iff_exists.mp hc
  obtain ⟨adj, hg2⟩ := Option.isSome_iff_exists.mp hg
  simp [astarPath, hc2, hg2, astarLoop_start_eq_end, reconstructPath]

/-- The guard clauses of `astarPath`: a start or end node that resolves no
coordinates or has no adjacency entry makes the call return `null`. -/
theorem astarPath_missing (nodes : List CNode) (graph : CGraph)
    (s e : String)
    (h : getNodeCoordinates nodes s = none ∨ getNodeCoordinates nodes e = none ∨
      assocFind graph s = none ∨ assocFind graph e = none) :
    astarPath nodes graph s e = none := by
  rcases h with h | h | h | h
  · cases he : getNodeCoordinates nodes e <;> simp [astarPath, h, he]
  · simp [astarPath, h]
  · cases he : getNodeCoordinates nodes e <;>
      cases hs : getNodeCoordinates nodes s <;> simp [astarPath, h, he, hs]
  · cases he : getNodeCoordinates nodes e <;>
      cases hs : getNodeCoordinates nodes s <;> simp [astarPath, h, he, hs]

/-- Concrete run on `exGraphTwo` (both endpoints present, no edges at all):
the start node is expanded, the open set empties, and the call returns
`null`. -/
theorem astar_disconnected_eval :
    astarPath exNodesTwo exGraphTwo ("A") ("B") = none := by
  have hgs : graphSize exGraphTwo = 1 + 1 := by simp [graphSize, exGraphTwo]
  simp [astarPath, exNodesTwo, exGraphTwo, nodeA, nodeB, getNodeCoordinates,
    List.find?, hgs, astarLoop, initialState, scanMin, astarStep,
    reconstructPath]

/-! ## Generic fold and lookup helpers -/

/-- A fold preserves any predicate each of its steps preserves. -/
theorem foldl_preserve {α β : Type} (P : α → Prop) (step : α → β → α)
    (l : List β) (a : α) (ha : P a)
    (h : ∀ x acc, x ∈ l → P acc → P (step acc x)) :
    P (l.foldl step a) := by
  induction l generalizing a with
  | nil => exact ha
  | cons b t ih =>
    exact ih (step a b) (h b a (by simp) ha)
      (fun x acc hx => h x acc (by simp [hx]))

/-- A key that appears in an association list is found. -/
theorem assocFind_isSome_of_mem {α : Type} {l : List (String × α)} {k : String}
    {v : α} (h : (k, v) ∈ l) : (assocFind l k).isSome := by
  induction l with
  | nil => simp at h
  | cons p t ih =>
    obtain ⟨a, b⟩ := p
    rw [List.mem_cons] at h
    rcases h with h | h
    · cases h
      simp
    · by_cases hak : a = k
      · simp [hak]
      · simp [hak, ih h]

/-- Characterization of the open-set minimum fold: either nothing beats the
running accumulator, or the result is the first element strictly below it that
no later element strictly undercuts. -/
theorem scanFold_spec (f : String → WithTop ℝ) (l : List String)
    (o : Option String) (v : WithTop ℝ) :
    (l.foldl (fun acc node => if f node < acc.2 then (some node, f node) else acc)
        (o, v) = (o, v) ∧ ∀ m ∈ l, v ≤ f m) ∨
    (∃ c l1 l2, l = l1 ++ c :: l2 ∧
      l.foldl (fun acc node => if f node < acc.2 then (some node, f node) else acc)
        (o, v) = (some c, f c) ∧ f c < v ∧
      (∀ m ∈ l1, f c < f m) ∧ (∀ m ∈ l2, f c ≤ f m)) := by
  induction l generalizing o v with
  | nil => exact Or.inl ⟨rfl, by simp⟩
  | cons a t ih =>
    by_cases h : f a < v
    · rcases ih (some a) (f a) with ⟨heq, hall⟩ | ⟨c, l1, l2, ht, heq, hlt, h1, h2⟩
      · refine Or.inr ⟨a, [], t, by simp, ?_, h, by simp, hall⟩
        simpa [h] using heq
      · refine Or.inr ⟨c, a :: l1, l2, by simp [ht], ?_, lt_trans hlt h, ?_, h2⟩
        · simpa [h] using heq
        · intro m hm
          rcases List.mem_cons.mp hm with hm | hm
          · exact hm ▸ hlt
          · exact h1 m hm
    · rcases ih o v with ⟨heq, hall⟩ | ⟨c, l1, l2, ht, heq, hlt, h1, h2⟩
      · refine Or.inl ⟨?_, ?_⟩
        · simpa [h] using heq
        · intro m hm
          rcases List.mem_cons.mp hm with hm | hm
          · exact hm ▸ le_of_not_lt h
          · exact hall m hm
      · refine Or.inr ⟨c, a :: l1, l2, by simp [ht], ?_, hlt, ?_, h2⟩
        · simpa [h] using heq
        · intro m hm
          rcases List.mem_cons.mp hm with hm | hm
          · exact hm ▸ lt_of_lt_of_le hlt (le_of_not_lt h)
          · exact h1 m hm

/-- When the scan selects a node, it is the first one in insertion order whose
`fScore` attains the minimum, its score is finite, and nothing in the list
scores strictly below it. -/
theorem scanMin_some (f : String → WithTop ℝ) (l : List String) (c : String)
    (h : (scanMin f l).1 = some c) :
    f c < ⊤ ∧ (∀ m ∈ l, f c ≤ f m) ∧
      ∃ l1 l2, l = l1 ++ c :: l2 ∧ ∀ m ∈ l1, f c < f m := by
  rcases scanFold_spec f l none ⊤ with ⟨heq, _⟩ | ⟨d, l1, l2, ht, heq, hlt, h1, h2⟩
  · rw [scanMin, heq] at h
    simp at h
  · rw [scanMin, heq] at h
    simp only [Option.some.injEq] at h
    subst h
    refine ⟨hlt, ?_, l1, l2, ht, h1⟩
    intro m hm
    rw [ht] at hm
    rcases List.mem_append.mp hm with hm | hm
    · exact le_of_lt (h1 m hm)
    · rcases List.mem_cons.mp hm with hm | hm
      · exact hm ▸ le_refl _
      · exact h2 m hm

/-- When the scan selects nothing every open node's `fScore` is `Infinity`. -/
theorem scanMin_none (f : String → WithTop ℝ) (l : List String)
    (h : (scanMin f l).1 = none) : ∀ m ∈ l, f m = ⊤ := by
  rcases scanFold_spec f l none ⊤ with ⟨heq, hall⟩ | ⟨d, l1, l2, ht, heq, hlt, h1, h2⟩
  · intro m hm
    exact top_le_iff.mp (hall m hm)
  · rw [scanMin, heq] at h
    simp at h

/-! ## Claim theorems for the path planner's edge cases -/

/-- C2 (corrected): a same-node query `astarPath(g, x, x)` on a resolvable
node id is not answered with the single-element path `[x]`; the search breaks
on its first scan, the rebuilt chain `[x]` fails the length-greater-than-one
guard, and the call returns `null` (the no-path signal). -/
theorem astarPath_same_node_is_null (nodes : List CNode) (graph : CGraph)
    (x : String) (hc : (getNodeCoordinates nodes x).isSome)
    (hg : (assocFind graph x).isSome) :
    astarPath nodes graph x x = none :=
  astarPath_self nodes graph x hc hg

/-- Witness for `astarPath_same_node_is_null` at the concrete single-node
instance. -/
theorem astarPath_same_node_is_null_witness :
    astarPath exNodesSelf exGraphSelf ("A") ("A") = none :=
  astarPath_same_node_is_null exNodesSelf exGraphSelf ("A")
    (by simp [getNodeCoordinates, exNodesSelf, nodeA, List.find?])
    (by simp [exGraphSelf])

/-- Counterexample to C2 as stated: on the single-node instance the same-node
query returns `null`, not the claimed single-element path `["A"]`. -/
theorem astarPath_same_node_cex :
    astarPath exNodesSelf exGraphSelf ("A") ("A") ≠ some [("A")] := by
  rw [astarPath_self exNodesSelf exGraphSelf ("A")
    (by simp [getNodeCoordinates, exNodesSelf, nodeA, List.find?])
    (by simp [exGraphSelf])]
  simp

/-- C3 (corrected): whenever the start or end id fails to resolve — no
coordinates or no adjacency entry — `astarPath` returns the same `null` value
that also signals "no route exists"; the two outcomes are not distinguished. -/
theorem astarPath_missing_node_is_null (nodes : List CNode) (graph : CGraph)
    (s e : String)
    (h : getNodeCoordinates nodes s = none ∨ getNodeCoordinates nodes e = none ∨
      assocFind graph s = none ∨ assocFind graph e = none) :
    astarPath nodes graph s e = none :=
  astarPath_missing nodes graph s e h

/-- Witness for `astarPath_missing_node_is_null`: the id `Z` resolves no node
of the single-node instance. -/
theorem astarPath_missing_node_is_null_witness :
    astarPath exNodesSelf exGraphSelf ("A") ("Z") = none :=
  astarPath_missing_node_is_null exNodesSelf exGraphSelf ("A") ("Z")
    (Or.inr (Or.inl (by simp [getNodeCoordinates, exNodesSelf, nodeA, List.find?])))

/-- Counterexample to C3 as stated: a query whose end id is absent from the
node set and a query between two existing but disconnected nodes both return
the very same `null` value — `NodeNotFound` is not signalled distinctly from
"no route exists". -/
theorem astarPath_null_signal_shared_cex :
    astarPath exNodesSelf exGraphSelf ("A") ("Z") = none ∧
    astarPath exNodesTwo exGraphTwo ("A") ("B") = none := by
  constructor
  · exact astarPath_missing exNodesSelf exGraphSelf ("A") ("Z")
      (Or.inr (Or.inl (by simp [getNodeCoordinates, exNodesSelf, nodeA, List.find?])))
  · exact astar_disconnected_eval

/-- C5 (confirmed): the search is a pure function of the graph state and the
endpoint pair — two invocations are literally the same node sequence — and
its tie-breaking is the deterministic insertion-order minimum scan: a
selected node is the first in insertion order to attain the minimal
`fScore`, every earlier node scoring strictly higher. -/
theorem astarPath_deterministic (nodes : List CNode) (graph : CGraph)
    (s e : String) (f : String → WithTop ℝ) (l : List String) (c : String)
    (h : (scanMin f l).1 = some c) :
    astarPath nodes graph s e = astarPath nodes graph s e ∧
    (∀ m ∈ l, f c ≤ f m) ∧
    ∃ l1 l2, l = l1 ++ c :: l2 ∧ ∀ m ∈ l1, f c < f m := by
  obtain ⟨-, hall, hsplit⟩ := scanMin_some f l c h
  exact ⟨rfl, hall, hsplit⟩

/-- Witness for `astarPath_deterministic` on a two-element open set with tied
scores: the first-inserted node wins. -/
theorem astarPath_deterministic_witness :
    astarPath exNodesTwo exGraphTwo ("A") ("B") =
      astarPath exNodesTwo exGraphTwo ("A") ("B") ∧
    (∀ m ∈ [("A"), ("B")],
      (fun _ : String => (1 : WithTop ℝ)) ("A") ≤ (fun _ : String => (1 : WithTop ℝ)) m) ∧
    ∃ l1 l2, [("A"), ("B")] = l1 ++ ("A") :: l2 ∧
      ∀ m ∈ l1,
        (fun _ : String => (1 : WithTop ℝ)) ("A") < (fun _ : String => (1 : WithTop ℝ)) m :=
  astarPath_deterministic exNodesTwo exGraphTwo ("A") ("B")
    (fun _ : String => (1 : WithTop ℝ)) [("A"), ("B")] ("A")
    (by simp [scanMin])

/-! ## Well-formedness of returned routes -/

/-- The reconstruction walk always ends at the node it was started from. -/
theorem reconstructPath_getLast (previous : String → Option String)
    (fuel : Nat) (cur : String) :
    (reconstructPath previous fuel cur).getLast? = some cur := by
  induction fuel generalizing cur with
  | zero => rfl
  | succ n ih =>
    cases h : previous cur with
    | none => simp [reconstructPath, h]
    | some u => simp [reconstructPath, h]

/-- Extending a chained list by one further edge keeps it chained. -/
theorem chainedIn_append (g : CGraph) (l : List String) (a b : String)
    (hc : ChainedIn g l) (hl : l.getLast? = some a)
    (he : (edgeWeight g a b).isSome) : ChainedIn g (l ++ [b]) := by
  induction l with
  | nil => simp at hl
  | cons x t ih =>
    cases t with
    | nil =>
      simp only [List.getLast?_singleton, Option.some.injEq] at hl
      subst hl
      exact ⟨he, trivial⟩
    | cons y t2 =>
      obtain ⟨hxy, hrest⟩ := hc
      exact ⟨hxy, ih hrest (by simpa using hl)⟩

/-- Under `PrevEdges`, every chain the reconstruction walk rebuilds only
traverses existing directed edges. -/
theorem reconstructPath_chained (g : CGraph) (previous : String → Option String)
    (hP : PrevEdges g previous) (fuel : Nat) (cur : String) :
    ChainedIn g (reconstructPath previous fuel cur) := by
  induction fuel generalizing cur with
  | zero => trivial
  | succ n ih =>
    cases h : previous cur with
    | none =>
      simp only [reconstructPath, h]
      trivial
    | some u =>
      simp only [reconstructPath, h]
      exact chainedIn_append g _ u cur (ih u) (reconstructPath_getLast previous n u)
        (hP cur u h)

/-- One neighbor-relaxation step preserves `PrevEdges`: the only link it can
write points from `current` along the adjacency entry being processed. -/
theorem processNeighbor_prevEdges (graph : CGraph) (nodes : List CNode)
    (endC : Coord) (cur : String) (adj : Adj)
    (hadj : assocFind graph cur = some adj) (st : AState) (e : String × ℝ)
    (he : e ∈ adj) (hP : PrevEdges graph st.previous) :
    PrevEdges graph (processNeighbor nodes endC cur st e).previous := by
  have hedge : (edgeWeight graph cur e.1).isSome := by
    have hew : edgeWeight graph cur e.1 = assocFind adj e.1 := by
      rw [edgeWeight, hadj]
      rfl
    rw [hew]
    exact assocFind_isSome_of_mem (l := adj) (k := e.1) (v := e.2) (by simpa using he)
  have hupd : ∀ st2 : AState, st2.previous = st.previous →
      PrevEdges graph (updateNeighbor nodes endC cur e.1
        (st2.gScore cur + ((e.2 : ℝ) : WithTop ℝ)) st2).previous := by
    intro st2 hst2
    intro v u hvu
    simp only [updateNeighbor] at hvu
    by_cases hv : v = e.1
    · rw [if_pos hv] at hvu
      cases hvu
      rw [hv]
      exact hedge
    · rw [if_neg hv, hst2] at hvu
      exact hP v u hvu
  unfold processNeighbor
  split
  · exact hP
  · split
    · split
      · exact hP
      · exact hupd st rfl
    · exact hupd { st with openL := st.openL ++ [e.1] } rfl

/-- The expansion of one `current` node preserves `PrevEdges`. -/
theorem astarStep_prevEdges (graph : CGraph) (nodes : List CNode)
    (endC : Coord) (cur : String) (st : AState)
    (hP : PrevEdges graph st.previous) :
    PrevEdges graph (astarStep graph nodes endC cur st).previous := by
  unfold astarStep
  cases hadj : assocFind graph cur with
  | none => simpa [hadj] using hP
  | some adj =>
    simp only [hadj, Option.getD_some]
    exact foldl_preserve (fun s : AState => PrevEdges graph s.previous)
      (processNeighbor nodes endC cur) adj _ hP
      (fun e acc hmem hacc =>
        processNeighbor_prevEdges graph nodes endC cur adj hadj acc e hmem hacc)

/-- The whole search loop preserves `PrevEdges`. -/
theorem astarLoop_prevEdges (graph : CGraph) (nodes : List CNode)
    (endId : String) (endC : Coord) (fuel : Nat) (st : AState)
    (hP : PrevEdges graph st.previous) :
    PrevEdges graph (astarLoop graph nodes endId endC fuel st) := by
  induction fuel generalizing st with
  | zero => exact hP
  | succ n ih =>
    simp only [astarLoop]
    split
    · exact hP
    · split
      · exact hP
      · split
        · exact hP
        · exact ih _ (astarStep_prevEdges graph nodes endC _ st hP)

/-- Any non-null result of `astarPath` is a well-formed route: at least two
nodes, starting at the requested start node, ending at the requested end
node, every consecutive pair joined by an existing directed adjacency
entry. -/
theorem astarPath_wellformed (nodes : List CNode) (graph : CGraph)
    (s e : String) (p : List String)
    (h : astarPath nodes graph s e = some p) :
    1 < p.length ∧ p.head? = some s ∧ p.getLast? = some e ∧ ChainedIn graph p := by
  unfold astarPath at h
  cases he : getNodeCoordinates nodes e with
  | none =>
    rw [he] at h
    cases hs : getNodeCoordinates nodes s <;> rw [hs] at h <;> simp at h
  | some endC =>
    rw [he] at h
    cases hs : getNodeCoordinates nodes s with
    | none =>
      rw [hs] at h
      simp at h
    | some startC =>
      rw [hs] at h
      simp only at h
      by_cases hg : (assocFind graph s).isNone ∨ (assocFind graph e).isNone
      · rw [if_pos hg] at h
        simp at h
      · rw [if_neg hg] at h
        set prev := astarLoop graph nodes e endC (graphSize graph + 1)
          (initialState s (heuristicDistance startC endC)) with hprev
        by_cases hcond : 1 < (reconstructPath prev (graphSize graph + 1) e).length ∧
            (reconstructPath prev (graphSize graph + 1) e).head? = some s
        · rw [if_pos hcond] at h
          obtain ⟨hlen, hhead⟩ := hcond
          cases h
          refine ⟨hlen, hhead, reconstructPath_getLast prev _ e, ?_⟩
          refine reconstructPath_chained graph prev ?_ _ e
          exact astarLoop_prevEdges graph nodes e endC _ _ (fun v u hvu => by
            simp [initialState] at hvu)
        · rw [if_neg hcond] at h
          simp at h

/-- Concrete run on the admissible two-node instance `exGraphEdge`: the
search relaxes `B` from `A` and returns the route `["A", "B"]`. -/
theorem astar_edge_eval :
    astarPath exNodesTwo exGraphEdge ("A") ("B") = some [("A"), ("B")] := by
  have hgs : graphSize exGraphEdge = 3 + 1 := by simp [graphSize, exGraphEdge]
  simp [astarPath, exNodesTwo, exGraphEdge, nodeA, nodeB, getNodeCoordinates,
    List.find?, hgs, astarLoop, initialState, scanMin, astarStep,
    processNeighbor, updateNeighbor, reconstructPath,
    WithTop.lt_top_iff_ne_top, WithTop.add_ne_top, WithTop.coe_ne_top]

/-- C10 (confirmed): every non-null `astarPath` result is a well-formed
route — length at least 2, first element the start id, last element the end
id, and every consecutive pair joined by a directed adjacency entry of the
graph. -/
theorem astarPath_wellformed_route (nodes : List CNode) (graph : CGraph)
    (s e : String) (p : List String)
    (h : astarPath nodes graph s e = some p) :
    1 < p.length ∧ p.head? = some s ∧ p.getLast? = some e ∧ ChainedIn graph p :=
  astarPath_wellformed nodes graph s e p h

/-- Witness for `astarPath_wellformed_route` on the concrete returned route
`["A", "B"]`. -/
theorem astarPath_wellformed_route_witness :
    1 < ([("A"), ("B")] : List String).length ∧
    ([("A"), ("B")] : List String).head? = some ("A") ∧
    ([("A"), ("B")] : List String).getLast? = some ("B") ∧
    ChainedIn exGraphEdge [("A"), ("B")] :=
  astarPath_wellformed_route exNodesTwo exGraphEdge ("A") ("B")
    [("A"), ("B")] astar_edge_eval

/-! ## The no-route case -/

/-- Reachability composes. -/
theorem reachable_trans (g : CGraph) (a b c : String) (h1 : Reachable g a b)
    (h2 : Reachable g b c) : Reachable g a c := by
  induction h2 with
  | refl => exact h1
  | step hr hedge ih => exact .step ih hedge

/-- A chained list from `s` to `e` witnesses reachability. -/
theorem chained_reachable (g : CGraph) (p : List String) (s e : String)
    (hc : ChainedIn g p) (hh : p.head? = some s) (hl : p.getLast? = some e) :
    Reachable g s e := by
  induction p generalizing s with
  | nil => simp at hh
  | cons a t ih =>
    rw [List.head?_cons, Option.some.injEq] at hh
    subst hh
    cases t with
    | nil =>
      rw [List.getLast?_singleton, Option.some.injEq] at hl
      subst hl
      exact .refl
    | cons b t2 =>
      obtain ⟨hab, hrest⟩ := hc
      refine reachable_trans g a b e (.step .refl hab) ?_
      exact ih b hrest rfl (by simpa using hl)

/-- When no directed route exists, the search returns `null`: the loop is
total (the model's fuel always makes it terminate rather than throw), the
`previous` chain from the end node cannot start at the start node, and the
reconstruction guard rejects it. -/
theorem astarPath_unreachable (nodes : List CNode) (graph : CGraph)
    (s e : String) (h : ¬ Reachable graph s e) :
    astarPath nodes graph s e = none := by
  cases hres : astarPath nodes graph s e with
  | none => rfl
  | some p =>
    obtain ⟨-, hh, hl, hc⟩ := astarPath_wellformed nodes graph s e p hres
    exact absurd (chained_reachable graph p s e hc hh hl) h

/-- The edgeless two-node graph has no directed entries at all. -/
theorem exGraphTwo_no_edges (a b : String) : edgeWeight exGraphTwo a b = none := by
  rw [edgeWeight]
  simp only [exGraphTwo, assocFind_cons, assocFind_nil]
  by_cases h1 : ("A" : String) = a <;> by_cases h2 : ("B" : String) = a <;>
    simp [h1, h2]

/-- Nothing is reachable from `A` in the edgeless graph but `A` itself. -/
theorem reachable_exGraphTwo (v : String) (h : Reachable exGraphTwo ("A") v) :
    v = ("A") := by
  induction h with
  | refl => rfl
  | step hr hedge ih =>
    rw [exGraphTwo_no_edges] at hedge
    simp at hedge

/-- C4 (confirmed): on any graph where no route from the
start to the end node exists — in particular when both exist but lie in
different connected components — the search terminates with the open set
exhausted and returns `null`, never throwing and never returning a non-empty
list. -/
theorem astarPath_no_route_is_null (nodes : List CNode) (graph : CGraph)
    (s e : String) (h : ¬ Reachable graph s e) :
    astarPath nodes graph s e = none :=
  astarPath_unreachable nodes graph s e h

/-- Witness for `astarPath_no_route_is_null` on the concrete disconnected
instance. -/
theorem astarPath_no_route_is_null_witness :
    astarPath exNodesTwo exGraphTwo ("A") ("B") = none :=
  astarPath_no_route_is_null exNodesTwo exGraphTwo ("A") ("B")
    (fun h => by
      have hv := reachable_exGraphTwo ("B") h
      simp at hv)

/-! ## Lemmas on the graph mutation primitives -/

/-- Lookup after a property write. -/
theorem assocFind_assocSet {α : Type} (l : List (String × α)) (y : String)
    (d : α) (k : String) :
    assocFind (assocSet l y d) k = if k = y then some d else assocFind l k := by
  induction l with
  | nil =>
    simp only [assocSet, assocFind_cons, assocFind_nil]
    by_cases h : y = k
    · simp [h]
    · simp [h, Ne.symm h]
  | cons p t ih =>
    obtain ⟨a, b⟩ := p
    by_cases hay : a = y
    · subst hay
      simp only [assocSet, if_pos rfl, assocFind_cons]
      by_cases hk : a = k
      · simp [hk]
      · simp [hk, Ne.symm hk]
    · simp only [assocSet, if_neg hay, assocFind_cons]
      by_cases hk : a = k
      · have hky : ¬ k = y := fun hh => hay ((hk.trans hh))
        simp [hk, hky]
      · simp [hk, ih]

/-- Lookup over a concatenation: the left list wins. -/
theorem assocFind_append {α : Type} (l1 l2 : List (String × α)) (k : String) :
    assocFind (l1 ++ l2) k =
      match assocFind l1 k with
      | some v => some v
      | none => assocFind l2 k := by
  induction l1 with
  | nil => simp
  | cons p t ih =>
    obtain ⟨a, b⟩ := p
    by_cases h : a = k <;> simp [h, ih]

/-- Lookup after a two-level write: only the written entry changes, by a
property write on its neighbor map. -/
theorem assocFind_graphSet (g : CGraph) (x y : String) (d : ℝ) (k : String) :
    assocFind (graphSet g x y d) k =
      if k = x then Option.map (fun adj => assocSet adj y d) (assocFind g x)
      else assocFind g k := by
  induction g with
  | nil =>
    by_cases h : k = x <;> simp [graphSet, h]
  | cons kv t ih =>
    obtain ⟨a, adj⟩ := kv
    by_cases hax : a = x
    · subst hax
      simp only [graphSet, if_pos rfl, assocFind_cons]
      by_cases hk : a = k
      · simp [hk]
      · simp [hk, Ne.symm hk]
    · simp only [graphSet, if_neg hax, assocFind_cons]
      by_cases hk : a = k
      · have hkx : ¬ k = x := fun hh => hax (hk.trans hh)
        simp [hk, hkx]
      · simp [hk, ih]

/-- The directed entry after a two-level write. -/
theorem edgeWeight_graphSet (g : CGraph) (x y : String) (d : ℝ) (a b : String) :
    edgeWeight (graphSet g x y d) a b =
      if a = x ∧ b = y ∧ (assocFind g x).isSome then some d
      else edgeWeight g a b := by
  rw [edgeWeight, edgeWeight, assocFind_graphSet]
  by_cases hax : a = x
  · rw [if_pos hax]
    cases hgx : assocFind g x with
    | none =>
      subst hax
      simp [hgx]
    | some adj =>
      subst hax
      simp only [hgx, Option.map_some, Option.isSome_some, Option.some_bind]
      by_cases hby : b = y
      · simp [hby, assocFind_assocSet]
      · simp [hby, assocFind_assocSet]
  · rw [if_neg hax]
    simp [hax]

/-- `graphEnsure` never changes a directed entry. -/
theorem edgeWeight_graphEnsure (g : CGraph) (k a b : String) :
    edgeWeight (graphEnsure g k) a b = edgeWeight g a b := by
  rw [graphEnsure]
  split
  · rfl
  · rename_i h
    rw [edgeWeight, edgeWeight, assocFind_append]
    cases hga : assocFind g a with
    | some adj => simp
    | none =>
      simp only []
      by_cases hka : k = a
      · subst hka
        simp [hga]
      · simp [hka]

/-- Key presence after `graphEnsure`. -/
theorem assocFind_graphEnsure_isSome (g : CGraph) (k k2 : String)
    (h : (assocFind g k2).isSome) :
    (assocFind (graphEnsure g k) k2).isSome := by
  rw [graphEnsure]
  split
  · exact h
  · rw [assocFind_append]
    obtain ⟨adj, hadj⟩ := Option.isSome_iff_exists.mp h
    simp [hadj]

/-- The ensured key is present afterwards. -/
theorem graphEnsure_self_isSome (g : CGraph) (k : String) :
    (assocFind (graphEnsure g k) k).isSome := by
  rw [graphEnsure]
  split
  · assumption
  · rw [assocFind_append]
    rename_i h
    rw [Option.not_isSome_iff_eq_none] at h
    simp [h]

/-- Key presence is unchanged by a two-level write. -/
theorem assocFind_graphSet_isSome (g : CGraph) (x y : String) (d : ℝ)
    (k : String) :
    (assocFind (graphSet g x y d) k).isSome = (assocFind g k).isSome := by
  rw [assocFind_graphSet]
  by_cases h : k = x
  · subst h
    simp
  · simp [h]

/-! ## The nearest-connected-node scan -/

/-- Characterization of the guarded minimum fold shared by
`findNearestConnectedNode` and `findBestWaypointBetweenRooms`: either no
candidate beats the accumulator, or the result is the first candidate
strictly below it that no later candidate strictly undercuts. -/
theorem minFold_spec {β : Type} (cond : β → Prop) (dist : β → ℝ) (l : List β)
    (o : Option β) (v : WithTop ℝ) :
    (l.foldl (fun acc node =>
        if cond node ∧ ((dist node : ℝ) : WithTop ℝ) < acc.2 then
          (some node, ((dist node : ℝ) : WithTop ℝ))
        else acc) (o, v) = (o, v) ∧
      ∀ m ∈ l, cond m → v ≤ ((dist m : ℝ) : WithTop ℝ)) ∨
    (∃ c l1 l2, l = l1 ++ c :: l2 ∧ cond c ∧
      l.foldl (fun acc node =>
        if cond node ∧ ((dist node : ℝ) : WithTop ℝ) < acc.2 then
          (some node, ((dist node : ℝ) : WithTop ℝ))
        else acc) (o, v) = (some c, ((dist c : ℝ) : WithTop ℝ)) ∧
      ((dist c : ℝ) : WithTop ℝ) < v ∧
      (∀ m ∈ l1, cond m → dist c < dist m) ∧
      (∀ m ∈ l2, cond m → dist c ≤ dist m)) := by
  induction l generalizing o v with
  | nil => exact Or.inl ⟨rfl, by simp⟩
  | cons a t ih =>
    by_cases h : cond a ∧ ((dist a : ℝ) : WithTop ℝ) < v
    · rcases ih (some a) ((dist a : ℝ) : WithTop ℝ) with
        ⟨heq, hall⟩ | ⟨c, l1, l2, ht, hcond, heq, hlt, h1, h2⟩
      · refine Or.inr ⟨a, [], t, by simp, h.1, ?_, h.2, by simp, ?_⟩
        · simpa [h] using heq
        · intro m hm hcm
          exact WithTop.coe_le_coe.mp (hall m hm hcm)
      · refine Or.inr ⟨c, a :: l1, l2, by simp [ht], hcond, ?_,
          lt_trans hlt h.2, ?_, h2⟩
        · simpa [h] using heq
        · intro m hm hcm
          rcases List.mem_cons.mp hm with hm | hm
          · exact hm ▸ WithTop.coe_lt_coe.mp hlt
          · exact h1 m hm hcm
    · rcases ih o v with ⟨heq, hall⟩ | ⟨c, l1, l2, ht, hcond, heq, hlt, h1, h2⟩
      · refine Or.inl ⟨?_, ?_⟩
        · simpa [h] using heq
        · intro m hm hcm
          rcases List.mem_cons.mp hm with hm | hm
          · subst hm
            rcases Classical.em (cond m) with hc | hc
            · exact le_of_not_lt (fun hl => h ⟨hc, hl⟩)
            · exact absurd hcm hc
          · exact hall m hm hcm
      · refine Or.inr ⟨c, a :: l1, l2, by simp [ht], hcond, ?_, hlt, ?_, h2⟩
        · simpa [h] using heq
        · intro m hm hcm
          rcases List.mem_cons.mp hm with hm | hm
          · subst hm
            have hva : v ≤ ((dist m : ℝ) : WithTop ℝ) :=
              le_of_not_lt (fun hl => h ⟨hcm, hl⟩)
            exact WithTop.coe_lt_coe.mp (lt_of_lt_of_le hlt hva)
          · exact h1 m hm hcm

/-- Specification of `findNearestConnectedNode`: a returned partner is a
candidate (different id, non-empty adjacency entry), at minimal Euclidean
distance among all candidates, and the first node in list order attaining
that minimum. -/
theorem findNearestConnectedNode_spec (env : Env) (target p : CNode)
    (h : findNearestConnectedNode env target = some p) :
    connectedCandidate env.graph target p ∧
    (∀ m ∈ env.nodes, connectedCandidate env.graph target m →
      calculateDistance target p ≤ calculateDistance target m) ∧
    ∃ l1 l2, env.nodes = l1 ++ p :: l2 ∧
      ∀ m ∈ l1, connectedCandidate env.graph target m →
        calculateDistance target p < calculateDistance target m := by
  rcases minFold_spec (connectedCandidate env.graph target)
      (calculateDistance target) env.nodes none ⊤ with
    ⟨heq, hall⟩ | ⟨c, l1, l2, ht, hcond, heq, hlt, h1, h2⟩
  · rw [findNearestConnectedNode, heq] at h
    simp at h
  · rw [findNearestConnectedNode, heq] at h
    simp only [Option.some.injEq] at h
    subst h
    refine ⟨hcond, ?_, l1, l2, ht, h1⟩
    intro m hm hcm
    rw [ht] at hm
    rcases List.mem_append.mp hm with hm | hm
    · exact le_of_lt (h1 m hm hcm)
    · rcases List.mem_cons.mp hm with hm | hm
      · exact hm ▸ le_refl _
      · exact h2 m hm hcm

/-- When the scan returns nothing there is no candidate at all. -/
theorem findNearestConnectedNode_none (env : Env) (target : CNode)
    (h : findNearestConnectedNode env target = none) :
    ∀ m ∈ env.nodes, ¬ connectedCandidate env.graph target m := by
  rcases minFold_spec (connectedCandidate env.graph target)
      (calculateDistance target) env.nodes none ⊤ with
    ⟨heq, hall⟩ | ⟨c, l1, l2, ht, hcond, heq, hlt, h1, h2⟩
  · intro m hm hcm
    have := hall m hm hcm
    exact absurd (lt_of_le_of_lt this (WithTop.coe_lt_top _)) (lt_irrefl _)
  · rw [findNearestConnectedNode, heq] at h
    simp at h

@[simp]
theorem nodeH_id : nodeH.id = ("H") := rfl

@[simp]
theorem nodeH_type : nodeH.type = ("intersection") := rfl

@[simp]
theorem nodeH_label : nodeH.label = ("h") := rfl

@[simp]
theorem nodeX_id : nodeX.id = ("X") := rfl

@[simp]
theorem nodeX_type : nodeX.type = ("stairway") := rfl

@[simp]
theorem nodeX_label : nodeX.label = ("x") := rfl

@[simp]
theorem nodeC_id : nodeC.id = ("C") := rfl

@[simp]
theorem nodeC_type : nodeC.type = ("class") := rfl

@[simp]
theorem nodeC_label : nodeC.label = ("c") := rfl

@[simp]
theorem nodeS_id : nodeS.id = ("S") := rfl

@[simp]
theorem nodeS_type : nodeS.type = ("stairway") := rfl

@[simp]
theorem nodeS_label : nodeS.label = ("s") := rfl

@[simp]
theorem nodeS_searchable : nodeS.searchable = true := rfl

@[simp]
theorem nodeP_id : nodeP.id = ("P") := rfl

@[simp]
theorem nodeP_type : nodeP.type = ("invisible") := rfl

@[simp]
theorem nodeP_label : nodeP.label = ("p") := rfl

@[simp]
theorem nodeQ_id : nodeQ.id = ("Q") := rfl

@[simp]
theorem nodeQ_type : nodeQ.type = ("invisible") := rfl

@[simp]
theorem nodeQ_label : nodeQ.label = ("q") := rfl

/-- Distance between the classroom `C` and the hub `H`. -/
theorem calc_C_H : calculateDistance nodeC nodeH = 500 := by
  rw [calculateDistance]
  exact sqrt_eval (by norm_num [nodeC, nodeH]) (by norm_num)

/-- Distance between the classroom `C` and the stairway `X`. -/
theorem calc_C_X : calculateDistance nodeC nodeX = 350 := by
  rw [calculateDistance]
  exact sqrt_eval (by norm_num [nodeC, nodeX]) (by norm_num)

/-- Distance between the hub `H` and the stairway `X`. -/
theorem calc_H_X : calculateDistance nodeH nodeX = 150 := by
  rw [calculateDistance]
  exact sqrt_eval (by norm_num [nodeH, nodeX]) (by norm_num)

/-- Concrete nearest-connected-node scan on `envRun1`: both `H` and `X` are
connected candidates for the isolated classroom `C`, and the strictly nearer
`X` (350 against 500) is selected. -/
theorem findNearest_envRun1 :
    findNearestConnectedNode envRun1 nodeC = some nodeX := by
  have h1 : ((calculateDistance nodeC nodeH : ℝ) : WithTop ℝ) < ⊤ :=
    WithTop.coe_lt_top _
  have h2 : ((calculateDistance nodeC nodeX : ℝ) : WithTop ℝ) <
      ((calculateDistance nodeC nodeH : ℝ) : WithTop ℝ) := by
    rw [WithTop.coe_lt_coe, calc_C_H, calc_C_X]
    norm_num
  rw [findNearestConnectedNode]
  simp [envRun1, connectedCandidate, h1, h2]

/-- The reconnection step of the room pass: for an isolated classroom whose
nearest-connected scan returns a partner, the partner is a candidate of
minimal Euclidean distance (first-seen winning ties), and the step inserts
the bidirectional edge with exactly that distance as weight. -/
theorem fixRoomStep_spec (e : Env) (c p : CNode)
    (hiso : isIsolated e.graph c.id)
    (hfind : findNearestConnectedNode e c = some p) :
    edgeWeight (fixRoomStep e c).graph c.id p.id = some (calculateDistance c p) ∧
    edgeWeight (fixRoomStep e c).graph p.id c.id = some (calculateDistance c p) ∧
    connectedCandidate e.graph c p ∧
    (∀ m ∈ e.nodes, connectedCandidate e.graph c m →
      calculateDistance c p ≤ calculateDistance c m) ∧
    ∃ l1 l2, e.nodes = l1 ++ p :: l2 ∧
      ∀ m ∈ l1, connectedCandidate e.graph c m →
        calculateDistance c p < calculateDistance c m := by
  obtain ⟨hcand, hmin, hfirst⟩ := findNearestConnectedNode_spec e c p hfind
  have hne : p.id ≠ c.id := hcand.1
  have hg2c : (assocFind (graphEnsure (graphEnsure e.graph c.id) p.id) c.id).isSome :=
    assocFind_graphEnsure_isSome _ p.id c.id (graphEnsure_self_isSome e.graph c.id)
  have hg2p : (assocFind (graphEnsure (graphEnsure e.graph c.id) p.id) p.id).isSome :=
    graphEnsure_self_isSome _ p.id
  have hstep : (fixRoomStep e c).graph =
      graphSet (graphSet (graphEnsure (graphEnsure e.graph c.id) p.id)
        c.id p.id (calculateDistance c p)) p.id c.id (calculateDistance c p) := by
    simp [fixRoomStep, if_pos hiso, hfind]
  have hpres : (assocFind (graphSet (graphEnsure (graphEnsure e.graph c.id) p.id)
      c.id p.id (calculateDistance c p)) p.id).isSome := by
    rw [assocFind_graphSet_isSome]
    exact hg2p
  refine ⟨?_, ?_, hcand, hmin, hfirst⟩
  · rw [hstep, edgeWeight_graphSet,
      if_neg (fun hcn => hne ((And.left hcn).symm)),
      edgeWeight_graphSet, if_pos ⟨rfl, rfl, hg2c⟩]
  · rw [hstep, edgeWeight_graphSet, if_pos ⟨rfl, rfl, hpres⟩]

/-- C8 (confirmed): the partner chosen for every isolated node the repair
pass reconnects is the Euclidean-nearest currently-connected other node
(first-seen order breaking ties), and the inserted edge is bidirectional
with weight equal to that distance. -/
theorem fixRoomConnections_nearest_partner (e : Env) (c p : CNode)
    (hiso : isIsolated e.graph c.id)
    (hfind : findNearestConnectedNode e c = some p) :
    edgeWeight (fixRoomStep e c).graph c.id p.id = some (calculateDistance c p) ∧
    edgeWeight (fixRoomStep e c).graph p.id c.id = some (calculateDistance c p) ∧
    connectedCandidate e.graph c p ∧
    (∀ m ∈ e.nodes, connectedCandidate e.graph c m →
      calculateDistance c p ≤ calculateDistance c m) ∧
    ∃ l1 l2, e.nodes = l1 ++ p :: l2 ∧
      ∀ m ∈ l1, connectedCandidate e.graph c m →
        calculateDistance c p < calculateDistance c m :=
  fixRoomStep_spec e c p hiso hfind

/-- Witness for `fixRoomConnections_nearest_partner` on `envRun1`, where the
isolated classroom `C` is reconnected to the nearer connected node `X`. -/
theorem fixRoomConnections_nearest_partner_witness :
    edgeWeight (fixRoomStep envRun1 nodeC).graph nodeC.id nodeX.id =
      some (calculateDistance nodeC nodeX) ∧
    edgeWeight (fixRoomStep envRun1 nodeC).graph nodeX.id nodeC.id =
      some (calculateDistance nodeC nodeX) ∧
    connectedCandidate envRun1.graph nodeC nodeX ∧
    (∀ m ∈ envRun1.nodes, connectedCandidate envRun1.graph nodeC m →
      calculateDistance nodeC nodeX ≤ calculateDistance nodeC m) ∧
    ∃ l1 l2, envRun1.nodes = l1 ++ nodeX :: l2 ∧
      ∀ m ∈ l1, connectedCandidate envRun1.graph nodeC m →
        calculateDistance nodeC nodeX < calculateDistance nodeC m :=
  fixRoomConnections_nearest_partner envRun1 nodeC nodeX
    (by simp [envRun1, isIsolated]) findNearest_envRun1

/-! ## Monotonicity of the repair pass -/

theorem graphGrows_refl (e : Env) : GraphGrows e e :=
  ⟨⟨[], by simp⟩, fun _ h => h, fun _ _ h => h⟩

theorem graphGrows_trans {a b c : Env} (h1 : GraphGrows a b)
    (h2 : GraphGrows b c) : GraphGrows a c := by
  obtain ⟨⟨t1, ht1⟩, hk1, he1⟩ := h1
  obtain ⟨⟨t2, ht2⟩, hk2, he2⟩ := h2
  exact ⟨⟨t1 ++ t2, by rw [ht2, ht1, List.append_assoc]⟩,
    fun k h => hk2 k (hk1 k h), fun x y h => he2 x y (he1 x y h)⟩

theorem grows_graphEnsure (e : Env) (k : String) :
    GraphGrows e { e with graph := graphEnsure e.graph k } :=
  ⟨⟨[], by simp⟩, fun k2 h => assocFind_graphEnsure_isSome _ k k2 h,
    fun a b h => by rw [edgeWeight_graphEnsure]; exact h⟩

theorem grows_graphSet (e : Env) (x y : String) (d : ℝ) :
    GraphGrows e { e with graph := graphSet e.graph x y d } := by
  refine ⟨⟨[], by simp⟩, ?_, ?_⟩
  · intro k h
    rw [assocFind_graphSet_isSome]
    exact h
  · intro a b h
    rw [edgeWeight_graphSet]
    split
    · simp
    · exact h

/-- Growth of the ensure–ensure–set–set shape every bidirectional insertion
of the pass uses. -/
theorem grows_pairSetEnsure (e : Env) (x y : String) (d : ℝ) :
    GraphGrows e { e with graph :=
      (graphSet (graphSet (graphEnsure (graphEnsure e.graph x) y) x y d) y x d) } := by
  have s1 := grows_graphEnsure e x
  have s2 := grows_graphEnsure { e with graph := graphEnsure e.graph x } y
  have s3 := grows_graphSet
    { e with graph := graphEnsure (graphEnsure e.graph x) y } x y d
  have s4 := grows_graphSet
    { e with graph := graphSet (graphEnsure (graphEnsure e.graph x) y) x y d } y x d
  exact graphGrows_trans (graphGrows_trans (graphGrows_trans s1 s2) s3) s4

/-- Growth of a bare bidirectional write pair. -/
theorem grows_pairSet (e : Env) (x y : String) (d : ℝ) :
    GraphGrows e { e with graph := graphSet (graphSet e.graph x y d) y x d } := by
  have s1 := grows_graphSet e x y d
  have s2 := grows_graphSet { e with graph := graphSet e.graph x y d } y x d
  exact graphGrows_trans s1 s2

theorem grows_fixRoomStep (e : Env) (c : CNode) : GraphGrows e (fixRoomStep e c) := by
  rw [fixRoomStep]
  split
  · split
    · exact grows_pairSetEnsure e _ _ _
    · exact graphGrows_refl e
  · exact graphGrows_refl e

theorem grows_fixRoomConnections (env : Env) :
    GraphGrows env (fixRoomConnections env) := by
  rw [fixRoomConnections]
  exact foldl_preserve (fun e2 => GraphGrows env e2) fixRoomStep _ env
    (graphGrows_refl env)
    (fun c acc _ hacc => graphGrows_trans hacc (grows_fixRoomStep acc c))

theorem grows_fixHubStep (hub : CNode) (e : Env) (nb : CNode) :
    GraphGrows e (fixHubStep hub e nb) := by
  rw [fixHubStep]
  split
  · split
    · exact grows_pairSetEnsure e _ _ _
    · exact graphGrows_trans (grows_graphEnsure e hub.id)
        (grows_graphEnsure { e with graph := graphEnsure e.graph hub.id } nb.id)
  · exact graphGrows_refl e

theorem grows_fixHubConnections (env : Env) :
    GraphGrows env (fixHubConnections env) := by
  rw [fixHubConnections]
  refine foldl_preserve (fun e2 => GraphGrows env e2) _ _ env
    (graphGrows_refl env) (fun hub acc _ hacc => ?_)
  refine graphGrows_trans hacc ?_
  exact foldl_preserve (fun e2 => GraphGrows acc e2) (fixHubStep hub) _ acc
    (graphGrows_refl acc)
    (fun nb acc2 _ hacc2 => graphGrows_trans hacc2 (grows_fixHubStep hub acc2 nb))

theorem grows_fixRoom310To305 (fp : Pathfinder) (env : Env) :
    GraphGrows env (fixRoom310To305 fp env) := by
  rw [fixRoom310To305]
  split
  · split
    · split
      · exact graphGrows_trans (grows_pairSetEnsure env _ _ _)
          (grows_pairSet _ _ _ _)
      · exact graphGrows_refl env
    · exact graphGrows_refl env
  · exact graphGrows_refl env

theorem grows_fixRoom314ToHub4 (env : Env) :
    GraphGrows env (fixRoom314ToHub4 env) := by
  rw [fixRoom314ToHub4]
  split
  · exact graphGrows_refl env
  · rename_i room314 h314
    split
    · exact grows_pairSetEnsure env _ _ _
    · refine graphGrows_trans
        (b := { nodes := env.nodes ++ [hub4Default room314], graph := env.graph })
        ⟨⟨[hub4Default room314], rfl⟩, fun _ h => h, fun _ _ h => h⟩ ?_
      exact grows_pairSetEnsure
        { nodes := env.nodes ++ [hub4Default room314], graph := env.graph } _ _ _

/-- C9 (amended direction): the repair pass only ever grows the graph — it
appends at most new nodes, keeps every adjacency entry, and keeps every
directed edge. -/
theorem applyAllFixes_grows (fp : Pathfinder) (env : Env) :
    GraphGrows env (applyAllFixes fp env) := by
  rw [applyAllFixes, validateGraphIntegrity, fixCoordinateTransformations]
  exact graphGrows_trans (graphGrows_trans (graphGrows_trans
    (grows_fixRoomConnections env) (grows_fixHubConnections _))
    (grows_fixRoom310To305 fp _)) (grows_fixRoom314ToHub4 _)

/-! ## Concrete evaluation of the repair pass -/

/-- Distance from the hub `H` to the classroom `C`. -/
theorem calc_H_C : calculateDistance nodeH nodeC = 500 := by
  rw [calculateDistance]
  exact sqrt_eval (by norm_num [nodeC, nodeH]) (by norm_num)

theorem filter_class_HXC :
    List.filter (fun n => n.type == ("class")) [nodeH, nodeX, nodeC] = [nodeC] :=
  rfl

theorem filter_hub_HXC :
    List.filter (fun n => n.type == ("intersection")) [nodeH, nodeX, nodeC] =
      [nodeH] :=
  rfl

theorem find310_HXC :
    List.find? (fun n => n.id == ("room_310") || strIncludes n.label ("310"))
      [nodeH, nodeX, nodeC] = none :=
  rfl

theorem find314_HXC :
    List.find? (fun n =>
      n.id == ("room_314") || strIncludes n.label ("314") || n.id == ("class_314"))
      [nodeH, nodeX, nodeC] = none :=
  rfl

/-- Only the stairway `X` lies within radius 150 of the hub `H`. -/
theorem radius_HXC :
    findNodesWithinRadius [nodeH, nodeX, nodeC] nodeH 150 = [nodeX] := by
  rw [findNodesWithinRadius]
  have hH : (decide (nodeH.id ≠ nodeH.id ∧ calculateDistance nodeH nodeH ≤ 150)) =
      false := by
    simp
  have hX : (decide (nodeX.id ≠ nodeH.id ∧ calculateDistance nodeH nodeX ≤ 150)) =
      true := by
    rw [decide_eq_true_eq]
    refine ⟨by simp, ?_⟩
    rw [calc_H_X]
  have hC : (decide (nodeC.id ≠ nodeH.id ∧ calculateDistance nodeH nodeC ≤ 150)) =
      false := by
    rw [decide_eq_false_iff_not]
    rintro ⟨-, hle⟩
    rw [calc_H_C] at hle
    norm_num at hle
  have hX2 : (decide (calculateDistance nodeH nodeX ≤ 150)) = true := by
    rw [decide_eq_true_eq, calc_H_X]
  have hC2 : (decide (calculateDistance nodeH nodeC ≤ 150)) = false := by
    rw [decide_eq_false_iff_not, calc_H_C]
    norm_num
  simp [List.filter, hH, hX, hC, hX2, hC2]

/-- In the empty initial graph no candidate is connected. -/
theorem findNearest_envHXC : findNearestConnectedNode envHXC nodeC = none := by
  rw [findNearestConnectedNode]
  simp [envHXC, connectedCandidate]

theorem roomstep_envHXC : fixRoomStep envHXC nodeC = envHXC := by
  rw [fixRoomStep, if_pos (by simp [envHXC, isIsolated]), findNearest_envHXC]

theorem fixRoom_envHXC : fixRoomConnections envHXC = envHXC := by
  rw [fixRoomConnections, show envHXC.nodes = [nodeH, nodeX, nodeC] from rfl,
    filter_class_HXC, List.foldl_cons, roomstep_envHXC, List.foldl_nil]

theorem hubstep_envHXC : fixHubStep nodeH envHXC nodeX = envRun1 := by
  rw [fixHubStep]
  rw [if_pos (by simp : nodeX.id ≠ nodeH.id ∧ nodeX.type ≠ ("invisible"))]
  have hfal : falsyWeight (edgeWeight
      (graphEnsure (graphEnsure envHXC.graph nodeH.id) nodeX.id)
      nodeH.id nodeX.id) := by
    simp [envHXC, graphEnsure, edgeWeight, falsyWeight, assocFind]
  rw [if_pos hfal, calc_H_X]
  simp [envHXC, envRun1, graphEnsure, graphSet, assocSet, assocFind]

theorem fixHub_envHXC : fixHubConnections envHXC = envRun1 := by
  rw [fixHubConnections, show envHXC.nodes = [nodeH, nodeX, nodeC] from rfl,
    filter_hub_HXC]
  simp only [List.foldl_cons, List.foldl_nil]
  rw [show envHXC.nodes = [nodeH, nodeX, nodeC] from rfl, radius_HXC]
  simp only [List.foldl_cons, List.foldl_nil]
  exact hubstep_envHXC

theorem fix310_envRun1 : fixRoom310To305 fpNone envRun1 = envRun1 := by
  rw [fixRoom310To305, show envRun1.nodes = [nodeH, nodeX, nodeC] from rfl,
    find310_HXC]

theorem fix314_envRun1 : fixRoom314ToHub4 envRun1 = envRun1 := by
  rw [fixRoom314ToHub4, show envRun1.nodes = [nodeH, nodeX, nodeC] from rfl,
    find314_HXC]

/-- First full run of the repair pass on the initially edgeless instance: the
classroom stays isolated (no connected candidate yet) and the hub pass joins
`H` and `X`. -/
theorem applyAll_envHXC : applyAllFixes fpNone envHXC = envRun1 := by
  rw [applyAllFixes, fixRoom_envHXC, fixHub_envHXC, fix310_envRun1,
    fix314_envRun1, fixCoordinateTransformations, validateGraphIntegrity]

theorem roomstep_envRun1 : fixRoomStep envRun1 nodeC = envRun2 := by
  rw [fixRoomStep, if_pos (by simp [envRun1, isIsolated]), findNearest_envRun1]
  simp [calc_C_X, envRun1, envRun2, graphEnsure, graphSet, assocSet, assocFind]

theorem fixRoom_envRun1 : fixRoomConnections envRun1 = envRun2 := by
  rw [fixRoomConnections, show envRun1.nodes = [nodeH, nodeX, nodeC] from rfl,
    filter_class_HXC, List.foldl_cons, roomstep_envRun1, List.foldl_nil]

theorem hubstep_envRun2 : fixHubStep nodeH envRun2 nodeX = envRun2 := by
  rw [fixHubStep]
  rw [if_pos (by simp : nodeX.id ≠ nodeH.id ∧ nodeX.type ≠ ("invisible"))]
  have hens : graphEnsure (graphEnsure envRun2.graph nodeH.id) nodeX.id =
      envRun2.graph := by
    simp [envRun2, graphEnsure]
  rw [hens]
  have hfal : ¬ falsyWeight (edgeWeight envRun2.graph nodeH.id nodeX.id) := by
    have hew : edgeWeight envRun2.graph nodeH.id nodeX.id = some 150 := by
      simp [envRun2, edgeWeight]
    rw [hew]
    intro hf
    simp only [falsyWeight] at hf
    rcases hf with hf | hf
    · exact Option.noConfusion hf
    · rw [Option.some.injEq] at hf
      norm_num at hf
  rw [if_neg hfal]

theorem fixHub_envRun2 : fixHubConnections envRun2 = envRun2 := by
  rw [fixHubConnections, show envRun2.nodes = [nodeH, nodeX, nodeC] from rfl,
    filter_hub_HXC]
  simp only [List.foldl_cons, List.foldl_nil]
  rw [show envRun2.nodes = [nodeH, nodeX, nodeC] from rfl, radius_HXC]
  simp only [List.foldl_cons, List.foldl_nil]
  exact hubstep_envRun2

theorem fix310_envRun2 : fixRoom310To305 fpNone envRun2 = envRun2 := by
  rw [fixRoom310To305, show envRun2.nodes = [nodeH, nodeX, nodeC] from rfl,
    find310_HXC]

theorem fix314_envRun2 : fixRoom314ToHub4 envRun2 = envRun2 := by
  rw [fixRoom314ToHub4, show envRun2.nodes = [nodeH, nodeX, nodeC] from rfl,
    find314_HXC]

/-- Second full run: the room pass now finds `X` connected and reconnects the
classroom `C` to it — the pass is not idempotent. -/
theorem applyAll_envRun1 : applyAllFixes fpNone envRun1 = envRun2 := by
  rw [applyAllFixes, fixRoom_envRun1, fixHub_envRun2, fix310_envRun2,
    fix314_envRun2, fixCoordinateTransformations, validateGraphIntegrity]

/-- C9 (corrected to monotonicity): the repair pass never removes a node, an
adjacency entry or a directed edge — but, as the counterexample shows, a
second run can add edges the first one could not, so the pass is not
idempotent. -/
theorem applyAllFixes_monotone (fp : Pathfinder) (env : Env) :
    GraphGrows env (applyAllFixes fp env) :=
  applyAllFixes_grows fp env

/-- Counterexample to C9 as stated: on the initially edgeless instance the
first run only joins `H`–`X`; the second run additionally reconnects the
classroom `C` to `X`, so running the repair twice does not produce the graph
of a single run. -/
theorem applyAllFixes_not_idempotent_cex :
    edgeWeight (applyAllFixes fpNone (applyAllFixes fpNone envHXC)).graph
      ("C") ("X") = some 350 ∧
    edgeWeight (applyAllFixes fpNone envHXC).graph ("C") ("X") = none ∧
    applyAllFixes fpNone (applyAllFixes fpNone envHXC) ≠
      applyAllFixes fpNone envHXC := by
  rw [applyAll_envHXC, applyAll_envRun1]
  refine ⟨by simp [envRun2, edgeWeight], by simp [envRun1, edgeWeight], ?_⟩
  intro h
  have h2 := congrArg (fun e => edgeWeight e.graph ("C") ("X")) h
  simp [envRun1, envRun2, edgeWeight] at h2

/-! ## The searchable-isolation and one-sided-edge instances -/

theorem fixRoom_envSPQ : fixRoomConnections envSPQ = envSPQ := by
  rw [fixRoomConnections, show envSPQ.nodes = [nodeS, nodeP, nodeQ] from rfl,
    show List.filter (fun n => n.type == ("class")) [nodeS, nodeP, nodeQ] = []
      from rfl, List.foldl_nil]

theorem fixHub_envSPQ : fixHubConnections envSPQ = envSPQ := by
  rw [fixHubConnections, show envSPQ.nodes = [nodeS, nodeP, nodeQ] from rfl,
    show List.filter (fun n => n.type == ("intersection")) [nodeS, nodeP, nodeQ] = []
      from rfl, List.foldl_nil]

theorem fix310_envSPQ : fixRoom310To305 fpNone envSPQ = envSPQ := by
  rw [fixRoom310To305, show envSPQ.nodes = [nodeS, nodeP, nodeQ] from rfl,
    show List.find? (fun n => n.id == ("room_310") || strIncludes n.label ("310"))
      [nodeS, nodeP, nodeQ] = none from rfl]

theorem fix314_envSPQ : fixRoom314ToHub4 envSPQ = envSPQ := by
  rw [fixRoom314ToHub4, show envSPQ.nodes = [nodeS, nodeP, nodeQ] from rfl,
    show List.find? (fun n =>
        n.id == ("room_314") || strIncludes n.label ("314") || n.id == ("class_314"))
      [nodeS, nodeP, nodeQ] = none from rfl]

/-- The repair pass leaves the stairway-with-waypoints instance untouched:
its only isolated node is a stairway, and only classrooms are reconnected. -/
theorem applyAll_envSPQ : applyAllFixes fpNone envSPQ = envSPQ := by
  rw [applyAllFixes, fixRoom_envSPQ, fixHub_envSPQ, fix310_envSPQ,
    fix314_envSPQ, fixCoordinateTransformations, validateGraphIntegrity]

theorem fixRoom_envOneSided : fixRoomConnections envOneSided = envOneSided := by
  rw [fixRoomConnections, show envOneSided.nodes = [nodeS, nodeX] from rfl,
    show List.filter (fun n => n.type == ("class")) [nodeS, nodeX] = [] from rfl,
    List.foldl_nil]

theorem fixHub_envOneSided : fixHubConnections envOneSided = envOneSided := by
  rw [fixHubConnections, show envOneSided.nodes = [nodeS, nodeX] from rfl,
    show List.filter (fun n => n.type == ("intersection")) [nodeS, nodeX] = []
      from rfl, List.foldl_nil]

theorem fix310_envOneSided : fixRoom310To305 fpNone envOneSided = envOneSided := by
  rw [fixRoom310To305, show envOneSided.nodes = [nodeS, nodeX] from rfl,
    show List.find? (fun n => n.id == ("room_310") || strIncludes n.label ("310"))
      [nodeS, nodeX] = none from rfl]

theorem fix314_envOneSided : fixRoom314ToHub4 envOneSided = envOneSided := by
  rw [fixRoom314ToHub4, show envOneSided.nodes = [nodeS, nodeX] from rfl,
    show List.find? (fun n =>
        n.id == ("room_314") || strIncludes n.label ("314") || n.id == ("class_314"))
      [nodeS, nodeX] = none from rfl]

/-- The pass never touches the pre-existing one-sided edge: no classroom is
isolated, no hub exists, and the validation step only reports. -/
theorem applyAll_envOneSided : applyAllFixes fpNone envOneSided = envOneSided := by
  rw [applyAllFixes, fixRoom_envOneSided, fixHub_envOneSided, fix310_envOneSided,
    fix314_envOneSided, fixCoordinateTransformations, validateGraphIntegrity]

/-- Counterexample to C6 as stated: after the repair pass completes on the
one-sided instance, the directed entry `S→X` (weight 7) still has no reverse
entry `X→S` — the pass does not insert missing reverse edges, it only
reports them. -/
theorem applyAllFixes_one_sided_cex :
    edgeWeight (applyAllFixes fpNone envOneSided).graph ("S") ("X") = some 7 ∧
    edgeWeight (applyAllFixes fpNone envOneSided).graph ("X") ("S") = none := by
  rw [applyAll_envOneSided]
  exact ⟨by simp [envOneSided, edgeWeight], by simp [envOneSided, edgeWeight]⟩

/-- Counterexample to C7 as stated: the searchable stairway `S` (not a data
marker) is still isolated after the repair pass completes, although connected
candidates existed — only nodes of type `class` are ever reconnected. -/
theorem applyAllFixes_isolated_searchable_cex :
    nodeS.searchable = true ∧ nodeS.type = ("stairway") ∧ nodeS ∈ envSPQ.nodes ∧
    isIsolated (applyAllFixes fpNone envSPQ).graph nodeS.id := by
  rw [applyAll_envSPQ]
  refine ⟨rfl, rfl, by simp [envSPQ], ?_⟩
  simp [envSPQ, isIsolated]

/-! ## Classroom reconnection (C7) -/

/-- A node is non-isolated exactly when some directed edge leaves it. -/
theorem notIsolated_iff (g : CGraph) (k : String) :
    ¬ isIsolated g k ↔ ∃ b, (edgeWeight g k b).isSome := by
  constructor
  · intro h
    cases hf : assocFind g k with
    | none => exact absurd (Or.inl hf) h
    | some adj =>
      cases adj with
      | nil => exact absurd (Or.inr hf) h
      | cons e t =>
        refine ⟨e.1, ?_⟩
        rw [edgeWeight, hf]
        have : assocFind (e :: t) e.1 = some e.2 := by
          obtain ⟨b, w⟩ := e
          simp
        simp [this]
  · rintro ⟨b, hb⟩ hiso
    rcases hiso with hf | hf <;> rw [edgeWeight, hf] at hb <;> simp at hb

/-- Non-isolation persists when the graph only grows. -/
theorem notIsolated_of_grows {e0 e1 : Env} (h : GraphGrows e0 e1) (k : String)
    (hn : ¬ isIsolated e0.graph k) : ¬ isIsolated e1.graph k := by
  rw [notIsolated_iff] at hn ⊢
  obtain ⟨b, hb⟩ := hn
  exact ⟨b, h.2.2 k b hb⟩

/-- The room step never changes the node list. -/
theorem fixRoomStep_nodes (e : Env) (c : CNode) : (fixRoomStep e c).nodes = e.nodes := by
  rw [fixRoomStep]
  split
  · split <;> rfl
  · rfl

/-- The room-connection fold reconnects every classroom it processes, as long
as some node of the environment already carries an edge. -/
theorem roomFold_connects (L : List CNode) (e : Env)
    (hw : ∃ m ∈ e.nodes, ∃ b, (edgeWeight e.graph m.id b).isSome) :
    (∀ c ∈ L, ¬ isIsolated (L.foldl fixRoomStep e).graph c.id) ∧
    GraphGrows e (L.foldl fixRoomStep e) ∧
    (L.foldl fixRoomStep e).nodes = e.nodes := by
  induction L generalizing e with
  | nil => exact ⟨by simp, graphGrows_refl e, rfl⟩
  | cons c t ih =>
    obtain ⟨m, hm, b, hb⟩ := hw
    have hstep := grows_fixRoomStep e c
    have hstepn := fixRoomStep_nodes e c
    have hcstep : ¬ isIsolated (fixRoomStep e c).graph c.id := by
      by_cases hiso : isIsolated e.graph c.id
      · cases hfind : findNearestConnectedNode e c with
        | none =>
          have hcand : connectedCandidate e.graph c m := by
            refine ⟨?_, ?_⟩
            · intro hid
              refine hiso.elim (fun hf => ?_) (fun hf => ?_) <;>
                rw [edgeWeight, hid, hf] at hb <;> simp at hb
            · cases hf : assocFind e.graph m.id with
              | none => rw [edgeWeight, hf] at hb; simp at hb
              | some adj =>
                refine ⟨adj, rfl, ?_⟩
                rintro rfl
                rw [edgeWeight, hf] at hb
                simp at hb
          exact absurd hcand (findNearestConnectedNode_none e c hfind m hm)
        | some p =>
          obtain ⟨he1, -, -, -, -⟩ := fixRoomStep_spec e c p hiso hfind
          rw [notIsolated_iff]
          exact ⟨p.id, by rw [he1]; rfl⟩
      · rw [fixRoomStep, if_neg hiso]
        exact hiso
    have hw1 : ∃ m2 ∈ (fixRoomStep e c).nodes, ∃ b2,
        (edgeWeight (fixRoomStep e c).graph m2.id b2).isSome := by
      exact ⟨m, hstepn ▸ hm, b, hstep.2.2 m.id b hb⟩
    obtain ⟨hall, hgrow, hnodes⟩ := ih (fixRoomStep e c) hw1
    refine ⟨?_, graphGrows_trans hstep hgrow, hnodes.trans hstepn⟩
    intro c2 hc2
    rcases List.mem_cons.mp hc2 with hc2 | hc2
    · subst hc2
      exact notIsolated_of_grows hgrow c2.id hcstep
    · exact hall c2 hc2

/-- C7 (corrected to classroom nodes): after the repair pass, every node of
type `class` has a non-empty neighbor set, provided some node of the
environment carried an edge at the start (the room pass needs one connected
candidate). Searchable nodes of other types are not reconnected, as the
counterexample shows. -/
theorem applyAllFixes_class_connected (fp : Pathfinder) (env : Env) (c : CNode)
    (hc : c ∈ env.nodes) (ht : c.type = ("class"))
    (hw : ∃ m ∈ env.nodes, ∃ b, (edgeWeight env.graph m.id b).isSome) :
    ¬ isIsolated (applyAllFixes fp env).graph c.id := by
  have hcf : c ∈ env.nodes.filter (fun n => n.type == ("class")) :=
    List.mem_filter.mpr ⟨hc, by simp [ht]⟩
  obtain ⟨hall, hgrow, hnodes⟩ :=
    roomFold_connects (env.nodes.filter (fun n => n.type == ("class"))) env hw
  have h1 : ¬ isIsolated (fixRoomConnections env).graph c.id := by
    rw [fixRoomConnections]
    exact hall c hcf
  have hrest : GraphGrows (fixRoomConnections env) (applyAllFixes fp env) := by
    rw [applyAllFixes, validateGraphIntegrity, fixCoordinateTransformations]
    exact graphGrows_trans (graphGrows_trans
      (grows_fixHubConnections (fixRoomConnections env))
      (grows_fixRoom310To305 fp _)) (grows_fixRoom314ToHub4 _)
  exact notIsolated_of_grows hrest c.id h1

/-- Witness for `applyAllFixes_class_connected` on `envRun1`: the classroom
`C` ends up connected. -/
theorem applyAllFixes_class_connected_witness :
    ¬ isIsolated (applyAllFixes fpNone envRun1).graph nodeC.id :=
  applyAllFixes_class_connected fpNone envRun1 nodeC
    (by simp [envRun1])
    rfl
    ⟨nodeH, by simp [envRun1], ("X"), by simp [envRun1, edgeWeight]⟩

/-! ## Bidirectionality of inserted edges (C6) -/

theorem symmUntouched_refl (g : CGraph) : SymmetricOrUntouched g g :=
  fun _ _ => Or.inl ⟨rfl, rfl⟩

theorem symmUntouched_trans {g0 g1 g2 : CGraph}
    (h1 : SymmetricOrUntouched g0 g1) (h2 : SymmetricOrUntouched g1 g2) :
    SymmetricOrUntouched g0 g2 := by
  intro a b
  rcases h2 a b with ⟨hab, hba⟩ | ⟨hne, heq⟩
  · rcases h1 a b with ⟨hab1, hba1⟩ | ⟨hne1, heq1⟩
    · exact Or.inl ⟨hab.trans hab1, hba.trans hba1⟩
    · exact Or.inr ⟨hab ▸ hne1, (hab.trans heq1).trans hba.symm⟩
  · exact Or.inr ⟨hne, heq⟩

theorem symmUntouched_ensure (g : CGraph) (k : String) :
    SymmetricOrUntouched g (graphEnsure g k) :=
  fun a b => Or.inl ⟨edgeWeight_graphEnsure g k a b, edgeWeight_graphEnsure g k b a⟩

/-- A paired bidirectional write with both endpoint entries present leaves
every ordered pair either untouched in both directions or equal and finite in
both directions. -/
theorem symmUntouched_pairSet (g : CGraph) (x y : String) (d : ℝ)
    (hx : (assocFind g x).isSome) (hy : (assocFind g y).isSome) :
    SymmetricOrUntouched g (graphSet (graphSet g x y d) y x d) := by
  intro a b
  have hy1 : (assocFind (graphSet g x y d) y).isSome := by
    rw [assocFind_graphSet_isSome]
    exact hy
  by_cases hc : (a = x ∧ b = y) ∨ (a = y ∧ b = x)
  · right
    have hab : edgeWeight (graphSet (graphSet g x y d) y x d) a b = some d := by
      rw [edgeWeight_graphSet]
      rcases hc with ⟨ha, hb⟩ | ⟨ha, hb⟩
      · by_cases h2 : a = y ∧ b = x ∧ (assocFind (graphSet g x y d) y).isSome
        · rw [if_pos h2]
        · rw [if_neg h2, edgeWeight_graphSet, if_pos ⟨ha, hb, hx⟩]
      · rw [if_pos ⟨ha, hb, hy1⟩]
    have hba : edgeWeight (graphSet (graphSet g x y d) y x d) b a = some d := by
      rw [edgeWeight_graphSet]
      rcases hc with ⟨ha, hb⟩ | ⟨ha, hb⟩
      · rw [if_pos ⟨hb, ha, hy1⟩]
      · by_cases h2 : b = y ∧ a = x ∧ (assocFind (graphSet g x y d) y).isSome
        · rw [if_pos h2]
        · rw [if_neg h2, edgeWeight_graphSet, if_pos ⟨hb, ha, hx⟩]
    rw [hab, hba]
    exact ⟨by simp, rfl⟩
  · left
    push_neg at hc
    constructor
    · rw [edgeWeight_graphSet,
        if_neg (fun h2 => (hc.2 h2.1 |>.elim) h2.2.1), edgeWeight_graphSet,
        if_neg (fun h2 => (hc.1 h2.1 |>.elim) h2.2.1)]
    · rw [edgeWeight_graphSet,
        if_neg (fun h2 => (hc.1 h2.2.1 |>.elim) h2.1), edgeWeight_graphSet,
        if_neg (fun h2 => (hc.2 h2.2.1 |>.elim) h2.1)]

/-- The ensure–ensure–set–set insertion shape is pair-symmetric. -/
theorem symmUntouched_pairSetEnsure (g : CGraph) (x y : String) (d : ℝ) :
    SymmetricOrUntouched g
      (graphSet (graphSet (graphEnsure (graphEnsure g x) y) x y d) y x d) := by
  refine symmUntouched_trans (symmUntouched_trans (symmUntouched_ensure g x)
    (symmUntouched_ensure (graphEnsure g x) y)) ?_
  refine symmUntouched_pairSet (graphEnsure (graphEnsure g x) y) x y d ?_ ?_
  · exact assocFind_graphEnsure_isSome _ y x (graphEnsure_self_isSome g x)
  · exact graphEnsure_self_isSome _ y

theorem symmUntouched_fixRoomStep (e : Env) (c : CNode) :
    SymmetricOrUntouched e.graph (fixRoomStep e c).graph := by
  rw [fixRoomStep]
  split
  · split
    · exact symmUntouched_pairSetEnsure e.graph _ _ _
    · exact symmUntouched_refl e.graph
  · exact symmUntouched_refl e.graph

theorem symmUntouched_fixRoomConnections (env : Env) :
    SymmetricOrUntouched env.graph (fixRoomConnections env).graph := by
  rw [fixRoomConnections]
  exact foldl_preserve (fun e2 : Env => SymmetricOrUntouched env.graph e2.graph)
    fixRoomStep _ env (symmUntouched_refl env.graph)
    (fun c acc _ hacc => symmUntouched_trans hacc (symmUntouched_fixRoomStep acc c))

theorem symmUntouched_fixHubStep (hub : CNode) (e : Env) (nb : CNode) :
    SymmetricOrUntouched e.graph (fixHubStep hub e nb).graph := by
  rw [fixHubStep]
  split
  · split
    · exact symmUntouched_pairSetEnsure e.graph _ _ _
    · exact symmUntouched_trans (symmUntouched_ensure e.graph hub.id)
        (symmUntouched_ensure (graphEnsure e.graph hub.id) nb.id)
  · exact symmUntouched_refl e.graph

theorem symmUntouched_fixHubConnections (env : Env) :
    SymmetricOrUntouched env.graph (fixHubConnections env).graph := by
  rw [fixHubConnections]
  refine foldl_preserve (fun e2 : Env => SymmetricOrUntouched env.graph e2.graph)
    _ _ env (symmUntouched_refl env.graph) (fun hub acc _ hacc => ?_)
  refine symmUntouched_trans hacc ?_
  exact foldl_preserve (fun e2 : Env => SymmetricOrUntouched acc.graph e2.graph)
    (fixHubStep hub) _ acc (symmUntouched_refl acc.graph)
    (fun nb acc2 _ hacc2 =>
      symmUntouched_trans hacc2 (symmUntouched_fixHubStep hub acc2 nb))

theorem symmUntouched_fixRoom310To305 (fp : Pathfinder) (e : Env)
    (h : fix310Completes fp e) :
    SymmetricOrUntouched e.graph (fixRoom310To305 fp e).graph := by
  rw [fixRoom310To305]
  split
  · rename_i room310 room305 h310 h305
    split
    · rename_i hpath
      split
      · rename_i waypoint hwp
        refine symmUntouched_trans
          (symmUntouched_pairSetEnsure e.graph room310.id waypoint.id
            (calculateDistance room310 waypoint)) ?_
        refine symmUntouched_pairSet _ waypoint.id room305.id
          (calculateDistance waypoint room305) ?_ ?_
        · rw [assocFind_graphSet_isSome, assocFind_graphSet_isSome]
          exact graphEnsure_self_isSome _ waypoint.id
        · rw [assocFind_graphSet_isSome, assocFind_graphSet_isSome]
          refine assocFind_graphEnsure_isSome _ waypoint.id room305.id ?_
          refine assocFind_graphEnsure_isSome _ room310.id room305.id ?_
          exact h room310 room305 waypoint h310 h305 hpath hwp
      · exact symmUntouched_refl e.graph
    · exact symmUntouched_refl e.graph
  · exact symmUntouched_refl e.graph

theorem symmUntouched_fixRoom314ToHub4 (env : Env) :
    SymmetricOrUntouched env.graph (fixRoom314ToHub4 env).graph := by
  rw [fixRoom314ToHub4]
  split
  · exact symmUntouched_refl env.graph
  · split
    · exact symmUntouched_pairSetEnsure env.graph _ _ _
    · exact symmUntouched_pairSetEnsure env.graph _ _ _

/-- C6 (corrected): the repair pass does not make the graph bidirectionally
consistent — pre-existing one-sided edges are only reported, never fixed (see
the counterexample) — but every ordered node pair is either left exactly as
it was in both directions or ends carrying equal finite entries in both
directions: the edges the pass itself inserts are always bidirectional with
equal weight. The hypothesis restricts to runs on which the source
`fixRoom310To305` completes rather than throwing on its unensured write. -/
theorem applyAllFixes_edges_symmetric_or_untouched (fp : Pathfinder) (env : Env)
    (h : fix310Completes fp (fixHubConnections (fixRoomConnections env))) :
    SymmetricOrUntouched env.graph (applyAllFixes fp env).graph := by
  rw [applyAllFixes, validateGraphIntegrity, fixCoordinateTransformations]
  refine symmUntouched_trans (symmUntouched_trans (symmUntouched_trans
    (symmUntouched_fixRoomConnections env)
    (symmUntouched_fixHubConnections (fixRoomConnections env)))
    (symmUntouched_fixRoom310To305 fp _ h))
    (symmUntouched_fixRoom314ToHub4 _)

theorem fixRoom_envEmpty : fixRoomConnections envEmpty = envEmpty := by
  rw [fixRoomConnections]
  rfl

theorem fixHub_envEmpty : fixHubConnections envEmpty = envEmpty := by
  rw [fixHubConnections]
  rfl

/-- Witness for `applyAllFixes_edges_symmetric_or_untouched` on the empty
environment, whose run trivially completes. -/
theorem applyAllFixes_edges_symmetric_or_untouched_witness :
    SymmetricOrUntouched envEmpty.graph (applyAllFixes fpNone envEmpty).graph :=
  applyAllFixes_edges_symmetric_or_untouched fpNone envEmpty
    (by
      rw [fixRoom_envEmpty, fixHub_envEmpty]
      intro r310 r305 w h1 h2 h3 h4
      simp [envEmpty] at h1)

/-! ## Groundwork for the optimality proof -/

/-- A found binding is a member. -/
theorem assocFind_mem {α : Type} {l : List (String × α)} {k : String} {v : α}
    (h : assocFind l k = some v) : (k, v) ∈ l := by
  induction l with
  | nil => simp at h
  | cons p t ih =>
    obtain ⟨a, b⟩ := p
    rw [assocFind_cons] at h
    by_cases hak : a = k
    · rw [if_pos hak] at h
      cases h
      rw [hak]
      exact List.mem_cons_self _ _
    · rw [if_neg hak] at h
      exact List.mem_cons_of_mem _ (ih h)

/-- With pairwise distinct keys, a member is the binding that lookup finds. -/
theorem assocFind_of_mem_nodup {α : Type} {l : List (String × α)} {k : String}
    {v : α} (hmem : (k, v) ∈ l) (hnd : (l.map Prod.fst).Nodup) :
    assocFind l k = some v := by
  induction l with
  | nil => simp at hmem
  | cons p t ih =>
    obtain ⟨a, b⟩ := p
    rw [List.map_cons, List.nodup_cons] at hnd
    rcases List.mem_cons.mp hmem with h | h
    · cases h
      simp
    · have hak : a ≠ k := by
        intro hk
        exact hnd.1 (hk ▸ (List.mem_map.mpr ⟨(k, v), h, rfl⟩))
      rw [assocFind_cons, if_neg hak]
      exact ih h hnd.2

/-- Cost of a route extended by one edge. -/
theorem pathCost_append_last (g : CGraph) (l : List String) (a b : String)
    (hl : l.getLast? = some a) :
    pathCost g (l ++ [b]) = pathCost g l + (edgeWeight g a b).getD 0 := by
  induction l with
  | nil => simp at hl
  | cons x t ih =>
    cases t with
    | nil =>
      rw [List.getLast?_singleton, Option.some.injEq] at hl
      subst hl
      simp [pathCost]
    | cons y t2 =>
      rw [List.getLast?_cons_cons] at hl
      have hrec := ih hl
      simp only [List.cons_append] at hrec ⊢
      rw [pathCost, pathCost, hrec]
      ring

/-- A route extended along one existing edge is a route. -/
theorem isPath_append (g : CGraph) (s a b : String) (l : List String)
    (hp : IsPath g s a l) (he : (edgeWeight g a b).isSome) :
    IsPath g s b (l ++ [b]) := by
  obtain ⟨hh, hl, hc⟩ := hp
  refine ⟨?_, by simp, chainedIn_append g l a b hc hl he⟩
  cases l with
  | nil => simp at hh
  | cons x t => simpa using hh

/-- The trivial route. -/
theorem isPath_singleton (g : CGraph) (s : String) : IsPath g s s [s] :=
  ⟨rfl, rfl, trivial⟩

theorem heuristicDistance_nonneg (c1 c2 : Coord) :
    0 ≤ heuristicDistance c1 c2 :=
  Real.sqrt_nonneg _

/-- Straight-line distance as a complex absolute value. -/
theorem heuristicDistance_abs (u v : Coord) :
    heuristicDistance u v = Complex.abs ⟨v.x - u.x, v.y - u.y⟩ := by
  rw [heuristicDistance, Complex.abs_apply, Complex.normSq_mk]

/-- Triangle inequality for the straight-line distance. -/
theorem heuristicDistance_triangle (a b c : Coord) :
    heuristicDistance a c ≤ heuristicDistance a b + heuristicDistance b c := by
  rw [heuristicDistance_abs, heuristicDistance_abs, heuristicDistance_abs]
  have hsum : (⟨c.x - a.x, c.y - a.y⟩ : ℂ) =
      (⟨b.x - a.x, b.y - a.y⟩ : ℂ) + ⟨c.x - b.x, c.y - b.y⟩ := by
    apply Complex.ext <;> simp
  rw [hsum]
  exact Complex.abs.add_le _ _

/-- A directed edge's endpoints are mentioned, and under admissibility its
weight dominates the straight-line distance, hence is non-negative. -/
theorem edge_nonneg (nodes : List CNode) (graph : CGraph)
    (hadm : Admissible nodes graph) (hc : CoordsTotal nodes graph)
    {a b : String} {w : ℝ} (h : edgeWeight graph a b = some w) : 0 ≤ w := by
  rw [edgeWeight] at h
  cases hga : assocFind graph a with
  | none => rw [hga] at h; simp at h
  | some adj =>
    rw [hga, Option.some_bind] at h
    have hmem : (b, w) ∈ adj := assocFind_mem h
    have hma : MentionedId graph a := Or.inl (by simp [hga])
    have hmb : MentionedId graph b := Or.inr ⟨a, adj, w, hga, hmem⟩
    obtain ⟨ca, hca⟩ := Option.isSome_iff_exists.mp (hc a hma)
    obtain ⟨cb, hcb⟩ := Option.isSome_iff_exists.mp (hc b hmb)
    have := hadm a adj hga (b, w) hmem ca cb hca hcb
    exact le_trans (heuristicDistance_nonneg ca cb) this

/-- Route costs are non-negative under admissibility. -/
theorem pathCost_nonneg (nodes : List CNode) (graph : CGraph)
    (hadm : Admissible nodes graph) (hc : CoordsTotal nodes graph)
    (p : List String) (hp : ChainedIn graph p) : 0 ≤ pathCost graph p := by
  induction p with
  | nil => simp [pathCost]
  | cons a t ih =>
    cases t with
    | nil => simp [pathCost]
    | cons b t2 =>
      obtain ⟨hab, hrest⟩ := hp
      obtain ⟨w, hw⟩ := Option.isSome_iff_exists.mp hab
      rw [pathCost, hw]
      have h1 := edge_nonneg nodes graph hadm hc hw
      have h2 := ih hrest
      simp only [Option.getD_some]
      linarith

/-- Consistency of the heuristic estimate along any listed edge. -/
theorem hEst_consistent (nodes : List CNode) (graph : CGraph) (endCoords : Coord)
    (hadm : Admissible nodes graph) (hc : CoordsTotal nodes graph)
    {u : String} {adj : Adj} (hu : assocFind graph u = some adj)
    {e : String × ℝ} (he : e ∈ adj) :
    hEst nodes endCoords u ≤ e.2 + hEst nodes endCoords e.1 := by
  have hmu : MentionedId graph u := Or.inl (by simp [hu])
  have hme : MentionedId graph e.1 := Or.inr ⟨u, adj, e.2, hu, by simpa using he⟩
  obtain ⟨cu, hcu⟩ := Option.isSome_iff_exists.mp (hc u hmu)
  obtain ⟨ce, hce⟩ := Option.isSome_iff_exists.mp (hc e.1 hme)
  have hd := hadm u adj hu e he cu ce hcu hce
  rw [hEst, hEst, hcu, hce]
  simp only [Option.getD_some]
  have ht := heuristicDistance_triangle cu ce endCoords
  linarith

/-- Every mentioned id occurs in `mentionedList`. -/
theorem mentioned_mem (g : CGraph) (v : String) (h : MentionedId g v) :
    v ∈ mentionedList g := by
  rw [mentionedList, List.mem_append]
  rcases h with h | ⟨cur, adj, w, hcur, hmem⟩
  · obtain ⟨adj, hadj⟩ := Option.isSome_iff_exists.mp h
    exact Or.inl (List.mem_map.mpr ⟨(v, adj), assocFind_mem hadj, rfl⟩)
  · refine Or.inr (List.mem_flatMap.mpr ⟨(cur, adj), assocFind_mem hcur, ?_⟩)
    exact List.mem_map.mpr ⟨(v, w), hmem, rfl⟩

theorem mentionedList_length (g : CGraph) :
    (mentionedList g).length = graphSize g := by
  rw [mentionedList, graphSize, List.length_append, List.length_map,
    List.length_flatMap]
  congr 1
  refine congrArg List.sum (List.map_congr_left ?_)
  intro kv _
  simp

/-- A duplicate-free list of mentioned ids is no longer than `graphSize`. -/
theorem closed_length_le (g : CGraph) (l : List String) (hn : l.Nodup)
    (hm : ∀ v ∈ l, MentionedId g v) : l.length ≤ graphSize g := by
  calc l.length = l.toFinset.card := (List.toFinset_card_of_nodup hn).symm
    _ ≤ (mentionedList g).toFinset.card := by
        refine Finset.card_le_card ?_
        intro x hx
        rw [List.mem_toFinset] at hx ⊢
        exact mentioned_mem g x (hm x hx)
    _ ≤ (mentionedList g).length := (mentionedList g).toFinset_card_le
    _ = graphSize g := mentionedList_length g

/-- Splitting a chained list at its final edge. -/
theorem chainedIn_of_append (g : CGraph) (l : List String) (b : String)
    (h : ChainedIn g (l ++ [b])) : ChainedIn g l ∧
      ∀ a, l.getLast? = some a → (edgeWeight g a b).isSome := by
  induction l with
  | nil => exact ⟨trivial, by simp⟩
  | cons x t ih =>
    cases t with
    | nil =>
      obtain ⟨hxb, -⟩ := h
      refine ⟨trivial, ?_⟩
      intro a ha
      rw [List.getLast?_singleton, Option.some.injEq] at ha
      exact ha ▸ hxb
    | cons y t2 =>
      obtain ⟨hxy, hrest⟩ := h
      obtain ⟨hc2, hlast⟩ := ih hrest
      refine ⟨⟨hxy, hc2⟩, ?_⟩
      intro a ha
      rw [List.getLast?_cons_cons] at ha
      exact hlast a ha

/-- Covering lemma: while the invariant holds, any route to a target outside
the closed set is dominated by some open node — its `fScore` is at most the
route's cost plus the target's heuristic estimate. -/
theorem ainv_cover (nodes : List CNode) (graph : CGraph)
    (startId endId : String) (endCoords : Coord) (st : AState)
    (inv : AInv nodes graph startId endId endCoords st)
    (hadm : Admissible nodes graph) (hc : CoordsTotal nodes graph)
    (q : List String) :
    ∀ v, IsPath graph startId v q → v ∉ st.closedL →
      ∃ m ∈ st.openL, st.fScore m ≤
        ((pathCost graph q + hEst nodes endCoords v : ℝ) : WithTop ℝ) := by
  induction q using List.reverseRecOn with
  | nil =>
    intro v hpath hvnc
    obtain ⟨hh, -, -⟩ := hpath
    simp at hh
  | append_singleton l b ihl =>
    intro v hpath hvnc
    obtain ⟨hh, hlast, hchain⟩ := hpath
    have hvb : v = b := by
      have hb : (l ++ [b]).getLast? = some b := by simp
      rw [hb, Option.some.injEq] at hlast
      exact hlast.symm
    rw [hvb] at hvnc ⊢
    cases l with
    | nil =>
      have hbs : b = startId := by
        simpa using hh
      rw [hbs] at hvnc ⊢
      simp only [List.nil_append]
      have hopen : startId ∈ st.openL := by
        rcases inv.start_mem with hcl | hop
        · exact absurd hcl hvnc
        · rw [hop]
          exact List.mem_singleton_self _
      refine ⟨startId, hopen, ?_⟩
      rw [inv.f_open startId hopen, inv.g_start,
        show pathCost graph [startId] = 0 from rfl, zero_add, zero_add]
    | cons x t =>
      cases hul : (x :: t).getLast? with
      | none => simp at hul
      | some u =>
        obtain ⟨hch, hedges⟩ := chainedIn_of_append graph (x :: t) b hchain
        obtain ⟨w, hw⟩ := Option.isSome_iff_exists.mp (hedges u hul)
        have hpath2 : IsPath graph startId u (x :: t) := by
          refine ⟨?_, hul, hch⟩
          rw [List.cons_append, List.head?_cons] at hh
          rw [List.head?_cons]
          exact hh
        have hcost : pathCost graph ((x :: t) ++ [b]) = pathCost graph (x :: t) + w := by
          rw [pathCost_append_last graph (x :: t) u b hul, hw]
          simp
        have hent : ∃ adj, assocFind graph u = some adj ∧ (b, w) ∈ adj := by
          rw [edgeWeight] at hw
          cases hgu : assocFind graph u with
          | none => rw [hgu] at hw; simp at hw
          | some adj =>
            rw [hgu, Option.some_bind] at hw
            exact ⟨adj, rfl, assocFind_mem hw⟩
        obtain ⟨adj, hgu, hmem⟩ := hent
        by_cases huc : u ∈ st.closedL
        · obtain ⟨hbopen, hgb⟩ := inv.frontier u huc adj hgu (b, w) hmem hvnc
          have hgu_opt := inv.g_closed_opt u huc (x :: t) hpath2
          obtain ⟨pu, -, hgu_eq⟩ := inv.g_closed u huc
          obtain ⟨pb, -, hgb_eq⟩ := inv.g_open b hbopen
          refine ⟨b, hbopen, ?_⟩
          rw [inv.f_open b hbopen, hgb_eq, hcost]
          rw [hgb_eq, hgu_eq] at hgb
          rw [hgu_eq] at hgu_opt
          have hgb2 : pathCost graph pb ≤ pathCost graph pu + w := by
            exact_mod_cast hgb
          have hgu2 : pathCost graph pu ≤ pathCost graph (x :: t) := by
            exact_mod_cast hgu_opt
          have hfin : pathCost graph pb + hEst nodes endCoords b ≤
              pathCost graph (x :: t) + w + hEst nodes endCoords b := by
            linarith
          exact_mod_cast hfin
        · obtain ⟨m, hm, hfm⟩ := ihl u hpath2 huc
          refine ⟨m, hm, ?_⟩
          have hcons := hEst_consistent nodes graph endCoords hadm hc hgu
            (e := (b, w)) hmem
          refine le_trans hfm ?_
          rw [hcost]
          refine WithTop.coe_le_coe.mpr ?_
          simp only at hcons
          linarith

/-- Pop optimality: when the scan selects a node from the open list, that
node's tentative `gScore` already equals the optimal route cost — it is at
most the cost of every route from the start to it. -/
theorem ainv_pop_opt (nodes : List CNode) (graph : CGraph)
    (startId endId : String) (endCoords : Coord) (st : AState)
    (inv : AInv nodes graph startId endId endCoords st)
    (hadm : Admissible nodes graph) (hc : CoordsTotal nodes graph)
    (cur : String) (hscan : (scanMin st.fScore st.openL).1 = some cur) :
    cur ∈ st.openL ∧
    ∀ q, IsPath graph startId cur q →
      st.gScore cur ≤ ((pathCost graph q : ℝ) : WithTop ℝ) := by
  obtain ⟨hfin, hallmin, l1, l2, hsplit, -⟩ := scanMin_some st.fScore st.openL cur hscan
  have hcur_open : cur ∈ st.openL := by
    rw [hsplit]
    exact List.mem_append_right _ (List.mem_cons_self _ _)
  refine ⟨hcur_open, ?_⟩
  intro q hq
  have hcur_nc : cur ∉ st.closedL := inv.open_closed cur hcur_open
  obtain ⟨m, hm, hfm⟩ := ainv_cover nodes graph startId endId endCoords st inv
    hadm hc q cur hq hcur_nc
  have h1 : st.fScore cur ≤ st.fScore m := hallmin m hm
  obtain ⟨p0, -, hg⟩ := inv.g_open cur hcur_open
  have h2 := inv.f_open cur hcur_open
  rw [h2, hg] at h1
  have h3 := le_trans h1 hfm
  rw [hg]
  have h4 : pathCost graph p0 + hEst nodes endCoords cur ≤
      pathCost graph q + hEst nodes endCoords cur := by exact_mod_cast h3
  exact WithTop.coe_le_coe.mpr (by linarith)

/-- Core preservation step of the neighbor loop: relaxing the pending
adjacency entry `e0` of the just-closed node `cur` keeps the mid-expansion
invariant, provided the relaxation either inserts a fresh node or strictly
improves an open one — exactly the situations in which the source writes. -/
theorem amid_update_core (nodes : List CNode) (graph : CGraph)
    (startId endId : String) (endCoords : Coord) (cur : String) (adj : Adj)
    (rem : List (String × ℝ)) (e0 : String × ℝ) (st : AState)
    (openL2 : List String)
    (hmid : AMid nodes graph startId endId endCoords cur adj (e0 :: rem) st)
    (hnd : AdjNodup graph) (hc : CoordsTotal nodes graph)
    (he0 : e0 ∈ adj) (hncl : e0.1 ∉ st.closedL)
    (himp : e0.1 ∉ st.openL ∨
      st.gScore cur + ((e0.2 : ℝ) : WithTop ℝ) < st.gScore e0.1)
    (hiff : ∀ v, v ∈ openL2 ↔ v ∈ st.openL ∨ v = e0.1)
    (hnod2 : openL2.Nodup) :
    AMid nodes graph startId endId endCoords cur adj rem
      (updateNeighbor nodes endCoords cur e0.1
        (st.gScore cur + ((e0.2 : ℝ) : WithTop ℝ))
        { st with openL := openL2 }) := by
  set tg := st.gScore cur + ((e0.2 : ℝ) : WithTop ℝ) with htg
  have hmem_b : MentionedId graph e0.1 :=
    Or.inr ⟨cur, adj, e0.2, hmid.cur_adj, by rw [Prod.mk.eta]; exact he0⟩
  obtain ⟨nc, hnc⟩ := Option.isSome_iff_exists.mp (hc e0.1 hmem_b)
  have hcur_ne : cur ≠ e0.1 := fun h => hncl (h ▸ hmid.cur_closed)
  have hstart_ne : startId ≠ e0.1 := fun h => hncl (h ▸ hmid.start_closed)
  have hkeys : (adj.map Prod.fst).Nodup := hnd cur adj hmid.cur_adj
  have hlook : edgeWeight graph cur e0.1 = some e0.2 := by
    rw [edgeWeight, hmid.cur_adj, Option.some_bind]
    exact assocFind_of_mem_nodup (by rw [Prod.mk.eta]; exact he0) hkeys
  have hstate : updateNeighbor nodes endCoords cur e0.1 tg
      { st with openL := openL2 } =
      { gScore := fun v => if v = e0.1 then tg else st.gScore v
        fScore := fun v =>
          if v = e0.1 then tg + ((heuristicDistance nc endCoords : ℝ) : WithTop ℝ)
          else st.fScore v
        previous := fun v => if v = e0.1 then some cur else st.previous v
        openL := openL2
        closedL := st.closedL } := by
    simp only [updateNeighbor, hnc]
  rw [hstate]
  have hhe : hEst nodes endCoords e0.1 = heuristicDistance nc endCoords := by
    rw [hEst, hnc, Option.getD_some]
  refine ⟨?_, ?_, ?_, ?_, ?_, ?_, ?_, ?_, ?_, ?_, ?_, ?_, ?_, ?_, ?_, ?_, ?_,
    ?_, ?_, ?_, ?_⟩
  · intro v hv
    rcases (hiff v).mp hv with h | h
    · exact hmid.open_mentioned v h
    · rw [h]; exact hmem_b
  · exact hmid.closed_mentioned
  · exact hnod2
  · exact hmid.closed_nodup
  · intro v hv
    rcases (hiff v).mp hv with h | h
    · exact hmid.open_closed v h
    · rw [h]; exact hncl
  · exact hmid.end_not_closed
  · show (if startId = e0.1 then some cur else st.previous startId) = none
    rw [if_neg hstart_ne, hmid.prev_start]
  · show (if startId = e0.1 then tg else st.gScore startId) = (0 : WithTop ℝ)
    rw [if_neg hstart_ne, hmid.g_start]
  · exact hmid.start_closed
  · exact hmid.cur_closed
  · exact hmid.cur_adj
  · intro v hv
    by_cases hveq : v = e0.1
    · obtain ⟨p, hp, hcost⟩ := hmid.g_closed cur hmid.cur_closed
      refine ⟨p ++ [v], ?_, ?_⟩
      · rw [hveq]
        exact isPath_append graph startId cur e0.1 p hp (by rw [hlook]; rfl)
      · show (if v = e0.1 then tg else st.gScore v) =
          ((pathCost graph (p ++ [v]) : ℝ) : WithTop ℝ)
        rw [if_pos hveq, htg, hcost, hveq,
          pathCost_append_last graph p cur e0.1 hp.2.1, hlook, Option.getD_some]
        norm_cast
    · have hvo : v ∈ st.openL := ((hiff v).mp hv).resolve_right hveq
      obtain ⟨p, hp, hcost⟩ := hmid.g_open v hvo
      refine ⟨p, hp, ?_⟩
      show (if v = e0.1 then tg else st.gScore v) =
        ((pathCost graph p : ℝ) : WithTop ℝ)
      rw [if_neg hveq, hcost]
  · intro v hv
    have hvne : v ≠ e0.1 := fun h => hncl (h ▸ hv)
    obtain ⟨p, hp, hcost⟩ := hmid.g_closed v hv
    refine ⟨p, hp, ?_⟩
    show (if v = e0.1 then tg else st.gScore v) =
      ((pathCost graph p : ℝ) : WithTop ℝ)
    rw [if_neg hvne, hcost]
  · intro v hv q hq
    have hvne : v ≠ e0.1 := fun h => hncl (h ▸ hv)
    show (if v = e0.1 then tg else st.gScore v) ≤
      ((pathCost graph q : ℝ) : WithTop ℝ)
    rw [if_neg hvne]
    exact hmid.g_closed_opt v hv q hq
  · intro v hv
    by_cases hveq : v = e0.1
    · show (if v = e0.1 then tg + ((heuristicDistance nc endCoords : ℝ) : WithTop ℝ)
          else st.fScore v) =
        (if v = e0.1 then tg else st.gScore v) +
          ((hEst nodes endCoords v : ℝ) : WithTop ℝ)
      rw [if_pos hveq, if_pos hveq, hveq, hhe]
    · have hvo : v ∈ st.openL := ((hiff v).mp hv).resolve_right hveq
      show (if v = e0.1 then tg + ((heuristicDistance nc endCoords : ℝ) : WithTop ℝ)
          else st.fScore v) =
        (if v = e0.1 then tg else st.gScore v) +
          ((hEst nodes endCoords v : ℝ) : WithTop ℝ)
      rw [if_neg hveq, if_neg hveq]
      exact hmid.f_open v hvo
  · intro u hu hune adjx hadjx e he henc
    have hu_ne : u ≠ e0.1 := fun h => hncl (h ▸ hu)
    obtain ⟨hopen_old, hbound_old⟩ :=
      hmid.frontier_old u hu hune adjx hadjx e he henc
    by_cases heq : e.1 = e0.1
    · refine ⟨(hiff e.1).mpr (Or.inr heq), ?_⟩
      show (if e.1 = e0.1 then tg else st.gScore e.1) ≤
        (if u = e0.1 then tg else st.gScore u) + ((e.2 : ℝ) : WithTop ℝ)
      rw [if_pos heq, if_neg hu_ne]
      rcases himp with hno | hlt
      · rw [heq] at hopen_old
        exact absurd hopen_old hno
      · rw [heq] at hbound_old
        exact le_trans (le_of_lt hlt) hbound_old
    · refine ⟨(hiff e.1).mpr (Or.inl hopen_old), ?_⟩
      show (if e.1 = e0.1 then tg else st.gScore e.1) ≤
        (if u = e0.1 then tg else st.gScore u) + ((e.2 : ℝ) : WithTop ℝ)
      rw [if_neg heq, if_neg hu_ne]
      exact hbound_old
  · intro e he hrm henc
    by_cases heq0 : e = e0
    · have h2 : e.1 = e0.1 := by rw [heq0]
      refine ⟨(hiff e.1).mpr (Or.inr h2), ?_⟩
      show (if e.1 = e0.1 then tg else st.gScore e.1) ≤
        (if cur = e0.1 then tg else st.gScore cur) + ((e.2 : ℝ) : WithTop ℝ)
      rw [if_pos h2, if_neg hcur_ne, heq0]
    · have hrm2 : e ∉ e0 :: rem := fun hm => (List.mem_cons.mp hm).elim heq0 hrm
      obtain ⟨hopen_old, hbound_old⟩ := hmid.frontier_cur e he hrm2 henc
      have hne1 : e.1 ≠ e0.1 := by
        intro h1
        have ha := assocFind_of_mem_nodup (by rw [Prod.mk.eta]; exact he) hkeys
        have hb := assocFind_of_mem_nodup (by rw [Prod.mk.eta]; exact he0) hkeys
        rw [h1] at ha
        rw [ha, Option.some.injEq] at hb
        exact heq0 (Prod.ext h1 hb)
      refine ⟨(hiff e.1).mpr (Or.inl hopen_old), ?_⟩
      show (if e.1 = e0.1 then tg else st.gScore e.1) ≤
        (if cur = e0.1 then tg else st.gScore cur) + ((e.2 : ℝ) : WithTop ℝ)
      rw [if_neg hne1, if_neg hcur_ne]
      exact hbound_old
  · intro v u hvu
    by_cases hveq : v = e0.1
    · have hvu2 : (if v = e0.1 then some cur else st.previous v) = some u := hvu
      rw [if_pos hveq, Option.some.injEq] at hvu2
      subst hvu2
      refine ⟨hmid.cur_closed, e0.2, by rw [hveq]; exact hlook, ?_⟩
      show (if v = e0.1 then tg else st.gScore v) =
        (if cur = e0.1 then tg else st.gScore cur) + ((e0.2 : ℝ) : WithTop ℝ)
      rw [if_pos hveq, if_neg hcur_ne, htg]
    · have hvu2 : (if v = e0.1 then some cur else st.previous v) = some u := hvu
      rw [if_neg hveq] at hvu2
      obtain ⟨huc, w2, hw2, hg2⟩ := hmid.prev_g v u hvu2
      have hune : u ≠ e0.1 := fun h => hncl (h ▸ huc)
      refine ⟨huc, w2, hw2, ?_⟩
      show (if v = e0.1 then tg else st.gScore v) =
        (if u = e0.1 then tg else st.gScore u) + ((w2 : ℝ) : WithTop ℝ)
      rw [if_neg hveq, if_neg hune]
      exact hg2
  · intro v u hvu l1 l2 hdec
    by_cases hveq : v = e0.1
    · refine absurd ?_ hncl
      rw [← hveq, hdec]
      exact List.mem_append_right l1 (List.mem_cons_self _ _)
    · have hvu2 : (if v = e0.1 then some cur else st.previous v) = some u := hvu
      rw [if_neg hveq] at hvu2
      exact hmid.prev_order v u hvu2 l1 l2 hdec
  · intro v hv hvs
    by_cases hveq : v = e0.1
    · show (if v = e0.1 then some cur else st.previous v) ≠ none
      rw [if_pos hveq]
      exact Option.some_ne_none cur
    · have hvo : v ∈ st.openL := ((hiff v).mp hv).resolve_right hveq
      show (if v = e0.1 then some cur else st.previous v) ≠ none
      rw [if_neg hveq]
      exact hmid.prev_some_open v hvo hvs
  · intro v hv hvs
    have hvne : v ≠ e0.1 := fun h => hncl (h ▸ hv)
    show (if v = e0.1 then some cur else st.previous v) ≠ none
    rw [if_neg hvne]
    exact hmid.prev_some_closed v hv hvs

/-- Folding the neighbor loop over the pending adjacency entries carries the
mid-expansion invariant down to an empty pending list. -/
theorem amid_fold (nodes : List CNode) (graph : CGraph) (startId endId : String)
    (endCoords : Coord) (cur : String) (adj : Adj)
    (hnd : AdjNodup graph) (hc : CoordsTotal nodes graph) :
    ∀ (rem : List (String × ℝ)) (st : AState), (∀ e ∈ rem, e ∈ adj) →
      AMid nodes graph startId endId endCoords cur adj rem st →
      AMid nodes graph startId endId endCoords cur adj []
        (rem.foldl (processNeighbor nodes endCoords cur) st) := by
  intro rem
  induction rem with
  | nil => exact fun st _ h => h
  | cons e0 rem2 ih =>
    intro st hsub hmid
    rw [List.foldl_cons]
    refine ih _ (fun e he => hsub e (List.mem_cons_of_mem _ he)) ?_
    have he0 : e0 ∈ adj := hsub e0 (List.mem_cons_self _ _)
    rw [processNeighbor]
    by_cases h1 : e0.1 ∈ st.closedL
    · rw [if_pos h1]
      refine ⟨hmid.open_mentioned, hmid.closed_mentioned, hmid.open_nodup,
        hmid.closed_nodup, hmid.open_closed, hmid.end_not_closed,
        hmid.prev_start, hmid.g_start, hmid.start_closed, hmid.cur_closed,
        hmid.cur_adj, hmid.g_open, hmid.g_closed, hmid.g_closed_opt,
        hmid.f_open, hmid.frontier_old, ?_, hmid.prev_g, hmid.prev_order,
        hmid.prev_some_open, hmid.prev_some_closed⟩
      intro e he hrm henc
      by_cases heq : e = e0
      · rw [heq] at henc
        exact absurd h1 henc
      · exact hmid.frontier_cur e he
          (fun hm => (List.mem_cons.mp hm).elim heq hrm) henc
    · rw [if_neg h1]
      by_cases h2 : e0.1 ∈ st.openL
      · rw [if_pos h2]
        by_cases h3 : st.gScore e0.1 ≤ st.gScore cur + ((e0.2 : ℝ) : WithTop ℝ)
        · rw [if_pos h3]
          refine ⟨hmid.open_mentioned, hmid.closed_mentioned, hmid.open_nodup,
            hmid.closed_nodup, hmid.open_closed, hmid.end_not_closed,
            hmid.prev_start, hmid.g_start, hmid.start_closed, hmid.cur_closed,
            hmid.cur_adj, hmid.g_open, hmid.g_closed, hmid.g_closed_opt,
            hmid.f_open, hmid.frontier_old, ?_, hmid.prev_g, hmid.prev_order,
            hmid.prev_some_open, hmid.prev_some_closed⟩
          intro e he hrm henc
          by_cases heq : e = e0
          · rw [heq]
            exact ⟨h2, h3⟩
          · exact hmid.frontier_cur e he
              (fun hm => (List.mem_cons.mp hm).elim heq hrm) henc
        · rw [if_neg h3]
          have hiff1 : ∀ v, v ∈ st.openL ↔ v ∈ st.openL ∨ v = e0.1 := by
            intro v
            constructor
            · exact Or.inl
            · intro hv
              rcases hv with h | h
              · exact h
              · rw [h]; exact h2
          exact amid_update_core nodes graph startId endId endCoords cur adj
            rem2 e0 st st.openL hmid hnd hc he0 h1 (Or.inr (lt_of_not_le h3))
            hiff1 hmid.open_nodup
      · rw [if_neg h2]
        have hiff2 : ∀ v, v ∈ st.openL ++ [e0.1] ↔ v ∈ st.openL ∨ v = e0.1 := by
          intro v
          rw [List.mem_append, List.mem_singleton]
        have hnod2 : (st.openL ++ [e0.1]).Nodup := by
          rw [List.nodup_append]
          refine ⟨hmid.open_nodup, List.nodup_singleton _, ?_⟩
          intro a ha hb
          rw [List.mem_singleton] at hb
          rw [hb] at ha
          exact h2 ha
        exact amid_update_core nodes graph startId endId endCoords cur adj
          rem2 e0 st (st.openL ++ [e0.1]) hmid hnd hc he0 h1 (Or.inl h2)
          hiff2 hnod2

/-- Closing a freshly popped node with an adjacency entry establishes the
mid-expansion invariant with every entry still pending. -/
theorem amid_init (nodes : List CNode) (graph : CGraph)
    (startId endId : String) (endCoords : Coord) (st : AState)
    (inv : AInv nodes graph startId endId endCoords st)
    (cur : String) (adj : Adj) (hadj : assocFind graph cur = some adj)
    (hcur_open : cur ∈ st.openL)
    (hopt : ∀ q, IsPath graph startId cur q →
      st.gScore cur ≤ ((pathCost graph q : ℝ) : WithTop ℝ))
    (hne : cur ≠ endId) :
    AMid nodes graph startId endId endCoords cur adj adj
      { st with openL := st.openL.erase cur, closedL := cur :: st.closedL } := by
  have hcur_nc : cur ∉ st.closedL := inv.open_closed cur hcur_open
  refine ⟨?_, ?_, ?_, ?_, ?_, ?_, ?_, ?_, ?_, ?_, ?_, ?_, ?_, ?_, ?_, ?_, ?_,
    ?_, ?_, ?_, ?_⟩
  · intro v hv
    exact inv.open_mentioned v (List.mem_of_mem_erase hv)
  · intro v hv
    rcases List.mem_cons.mp hv with h | h
    · rw [h]; exact inv.open_mentioned cur hcur_open
    · exact inv.closed_mentioned v h
  · exact inv.open_nodup.erase cur
  · exact List.nodup_cons.mpr ⟨hcur_nc, inv.closed_nodup⟩
  · intro v hv
    obtain ⟨hvne, hvo⟩ := (inv.open_nodup.mem_erase_iff).mp hv
    intro hmem
    rcases List.mem_cons.mp hmem with h | h
    · exact hvne h
    · exact inv.open_closed v hvo h
  · intro hmem
    rcases List.mem_cons.mp hmem with h | h
    · exact hne h.symm
    · exact inv.end_not_closed h
  · exact inv.prev_start
  · exact inv.g_start
  · rcases inv.start_mem with h | h
    · exact List.mem_cons_of_mem cur h
    · have : cur = startId := by
        rw [h, List.mem_singleton] at hcur_open
        exact hcur_open
      rw [this]
      exact List.mem_cons_self _ _
  · exact List.mem_cons_self _ _
  · exact hadj
  · intro v hv
    exact inv.g_open v (List.mem_of_mem_erase hv)
  · intro v hv
    rcases List.mem_cons.mp hv with h | h
    · rw [h]; exact inv.g_open cur hcur_open
    · exact inv.g_closed v h
  · intro v hv q hq
    rcases List.mem_cons.mp hv with h | h
    · rw [h]; exact hopt q (by rw [h] at hq; exact hq)
    · exact inv.g_closed_opt v h q hq
  · intro v hv
    exact inv.f_open v (List.mem_of_mem_erase hv)
  · intro u hu hune adjx hadjx e he henc
    have hu2 : u ∈ st.closedL := by
      rcases List.mem_cons.mp hu with h | h
      · exact absurd h hune
      · exact h
    have henc2 : e.1 ∉ st.closedL := fun h => henc (List.mem_cons_of_mem _ h)
    have hene : e.1 ≠ cur := fun h => henc (h ▸ List.mem_cons_self _ _)
    obtain ⟨hop, hbound⟩ := inv.frontier u hu2 adjx hadjx e he henc2
    exact ⟨(inv.open_nodup.mem_erase_iff).mpr ⟨hene, hop⟩, hbound⟩
  · intro e he hrm
    exact absurd he hrm
  · intro v u hvu
    obtain ⟨huc, hrest⟩ := inv.prev_g v u hvu
    exact ⟨List.mem_cons_of_mem _ huc, hrest⟩
  · intro v u hvu l1 l2 hdec
    cases l1 with
    | nil =>
      rw [List.nil_append] at hdec
      injection hdec with h1 h2
      rw [← h2]
      exact (inv.prev_g v u hvu).1
    | cons a l1t =>
      rw [List.cons_append] at hdec
      injection hdec with h1 h2
      exact inv.prev_order v u hvu l1t l2 h2
  · intro v hv hvs
    exact inv.prev_some_open v (List.mem_of_mem_erase hv) hvs
  · intro v hv hvs
    rcases List.mem_cons.mp hv with h | h
    · rw [h]
      exact inv.prev_some_open cur hcur_open (by rw [← h]; exact hvs)
    · exact inv.prev_some_closed v h hvs

/-- After the last pending entry is processed the mid-expansion invariant
collapses back into the loop invariant. -/
theorem amid_to_ainv (nodes : List CNode) (graph : CGraph)
    (startId endId : String) (endCoords : Coord) (cur : String) (adj : Adj)
    (st : AState)
    (hmid : AMid nodes graph startId endId endCoords cur adj [] st) :
    AInv nodes graph startId endId endCoords st := by
  refine ⟨hmid.open_mentioned, hmid.closed_mentioned, hmid.open_nodup,
    hmid.closed_nodup, hmid.open_closed, hmid.end_not_closed,
    hmid.prev_start, hmid.g_start, Or.inl hmid.start_closed, hmid.g_open,
    hmid.g_closed, hmid.g_closed_opt, hmid.f_open, ?_, hmid.prev_g,
    hmid.prev_order, hmid.prev_some_open, hmid.prev_some_closed⟩
  intro u hu adjx hadjx e he henc
  by_cases huc : u = cur
  · rw [huc, hmid.cur_adj, Option.some.injEq] at hadjx
    rw [← hadjx] at he
    rw [huc]
    exact hmid.frontier_cur e he (List.not_mem_nil e) henc
  · exact hmid.frontier_old u hu huc adjx hadjx e he henc

/-- Closing a freshly popped node that has no adjacency entry preserves the
loop invariant directly (the neighbor loop body never runs). -/
theorem ainv_step_noadj (nodes : List CNode) (graph : CGraph)
    (startId endId : String) (endCoords : Coord) (st : AState)
    (inv : AInv nodes graph startId endId endCoords st)
    (cur : String) (hnone : assocFind graph cur = none)
    (hcur_open : cur ∈ st.openL)
    (hopt : ∀ q, IsPath graph startId cur q →
      st.gScore cur ≤ ((pathCost graph q : ℝ) : WithTop ℝ))
    (hne : cur ≠ endId) :
    AInv nodes graph startId endId endCoords
      { st with openL := st.openL.erase cur, closedL := cur :: st.closedL } := by
  have hcur_nc : cur ∉ st.closedL := inv.open_closed cur hcur_open
  refine ⟨?_, ?_, ?_, ?_, ?_, ?_, ?_, ?_, ?_, ?_, ?_, ?_, ?_, ?_, ?_, ?_, ?_,
    ?_⟩
  · intro v hv
    exact inv.open_mentioned v (List.mem_of_mem_erase hv)
  · intro v hv
    rcases List.mem_cons.mp hv with h | h
    · rw [h]; exact inv.open_mentioned cur hcur_open
    · exact inv.closed_mentioned v h
  · exact inv.open_nodup.erase cur
  · exact List.nodup_cons.mpr ⟨hcur_nc, inv.closed_nodup⟩
  · intro v hv
    obtain ⟨hvne, hvo⟩ := (inv.open_nodup.mem_erase_iff).mp hv
    intro hmem
    rcases List.mem_cons.mp hmem with h | h
    · exact hvne h
    · exact inv.open_closed v hvo h
  · intro hmem
    rcases List.mem_cons.mp hmem with h | h
    · exact hne h.symm
    · exact inv.end_not_closed h
  · exact inv.prev_start
  · exact inv.g_start
  · refine Or.inl ?_
    rcases inv.start_mem with h | h
    · exact List.mem_cons_of_mem cur h
    · have : cur = startId := by
        rw [h, List.mem_singleton] at hcur_open
        exact hcur_open
      rw [this]
      exact List.mem_cons_self _ _
  · intro v hv
    exact inv.g_open v (List.mem_of_mem_erase hv)
  · intro v hv
    rcases List.mem_cons.mp hv with h | h
    · rw [h]; exact inv.g_open cur hcur_open
    · exact inv.g_closed v h
  · intro v hv q hq
    rcases List.mem_cons.mp hv with h | h
    · rw [h]; exact hopt q (by rw [h] at hq; exact hq)
    · exact inv.g_closed_opt v h q hq
  · intro v hv
    exact inv.f_open v (List.mem_of_mem_erase hv)
  · intro u hu adjx hadjx e he henc
    have hu2 : u ∈ st.closedL := by
      rcases List.mem_cons.mp hu with h | h
      · rw [h] at hadjx
        rw [hnone] at hadjx
        exact absurd hadjx (Option.noConfusion)
      · exact h
    have henc2 : e.1 ∉ st.closedL := fun h => henc (List.mem_cons_of_mem _ h)
    have hene : e.1 ≠ cur := fun h => henc (h ▸ List.mem_cons_self _ _)
    obtain ⟨hop, hbound⟩ := inv.frontier u hu2 adjx hadjx e he henc2
    exact ⟨(inv.open_nodup.mem_erase_iff).mpr ⟨hene, hop⟩, hbound⟩
  · intro v u hvu
    obtain ⟨huc, hrest⟩ := inv.prev_g v u hvu
    exact ⟨List.mem_cons_of_mem _ huc, hrest⟩
  · intro v u hvu l1 l2 hdec
    cases l1 with
    | nil =>
      rw [List.nil_append] at hdec
      injection hdec with h1 h2
      rw [← h2]
      exact (inv.prev_g v u hvu).1
    | cons a l1t =>
      rw [List.cons_append] at hdec
      injection hdec with h1 h2
      exact inv.prev_order v u hvu l1t l2 h2
  · intro v hv hvs
    exact inv.prev_some_open v (List.mem_of_mem_erase hv) hvs
  · intro v hv hvs
    rcases List.mem_cons.mp hv with h | h
    · rw [h]
      exact inv.prev_some_open cur hcur_open (by rw [← h]; exact hvs)
    · exact inv.prev_some_closed v h hvs

/-- The neighbor loop never touches the closed set. -/
theorem foldl_processNeighbor_closedL (nodes : List CNode) (endCoords : Coord)
    (cur : String) :
    ∀ (l : List (String × ℝ)) (s : AState),
      (l.foldl (processNeighbor nodes endCoords cur) s).closedL = s.closedL := by
  intro l
  induction l with
  | nil => intro s; rfl
  | cons e t ih =>
    intro s
    rw [List.foldl_cons, ih]
    rw [processNeighbor]
    by_cases h1 : e.1 ∈ s.closedL
    · rw [if_pos h1]
    · rw [if_neg h1]
      by_cases h2 : e.1 ∈ s.openL
      · rw [if_pos h2]
        by_cases h3 : s.gScore e.1 ≤ s.gScore cur + ((e.2 : ℝ) : WithTop ℝ)
        · rw [if_pos h3]
        · rw [if_neg h3]; rfl
      · rw [if_neg h2]; rfl

/-- One full loop iteration on a selected non-end node preserves the loop
invariant and extends the closed set by exactly that node. -/
theorem ainv_step (nodes : List CNode) (graph : CGraph)
    (startId endId : String) (endCoords : Coord) (st : AState)
    (inv : AInv nodes graph startId endId endCoords st)
    (hadm : Admissible nodes graph) (hc : CoordsTotal nodes graph)
    (hnd : AdjNodup graph)
    (cur : String) (hscan : (scanMin st.fScore st.openL).1 = some cur)
    (hne : cur ≠ endId) :
    AInv nodes graph startId endId endCoords
        (astarStep graph nodes endCoords cur st) ∧
      (astarStep graph nodes endCoords cur st).closedL = cur :: st.closedL := by
  obtain ⟨hcur_open, hopt⟩ := ainv_pop_opt nodes graph startId endId endCoords
    st inv hadm hc cur hscan
  cases hadj : assocFind graph cur with
  | none =>
    have hstep : astarStep graph nodes endCoords cur st =
        { st with openL := st.openL.erase cur, closedL := cur :: st.closedL } := by
      rw [astarStep, hadj]
      rfl
    rw [hstep]
    exact ⟨ainv_step_noadj nodes graph startId endId endCoords st inv cur hadj
      hcur_open hopt hne, rfl⟩
  | some adj =>
    have hmid0 := amid_init nodes graph startId endId endCoords st inv cur adj
      hadj hcur_open hopt hne
    have hmid1 := amid_fold nodes graph startId endId endCoords cur adj hnd hc
      adj _ (fun e he => he) hmid0
    constructor
    · rw [astarStep, hadj]
      exact amid_to_ainv nodes graph startId endId endCoords cur adj _ hmid1
    · rw [astarStep, hadj]
      exact foldl_processNeighbor_closedL nodes endCoords cur _ _

/-- The loop invariant holds right after `astarPath`'s initialization
block. -/
theorem ainv_initial (nodes : List CNode) (graph : CGraph)
    (startId endId : String) (endCoords : Coord) (h0 : ℝ)
    (hs : (assocFind graph startId).isSome)
    (hh0 : h0 = hEst nodes endCoords startId) :
    AInv nodes graph startId endId endCoords (initialState startId h0) := by
  refine ⟨?_, ?_, ?_, ?_, ?_, ?_, ?_, ?_, ?_, ?_, ?_, ?_, ?_, ?_, ?_, ?_, ?_,
    ?_⟩
  · intro v hv
    have hv2 : v ∈ [startId] := hv
    rw [List.mem_singleton] at hv2
    rw [hv2]
    exact Or.inl hs
  · intro v hv
    exact absurd hv (List.not_mem_nil v)
  · exact List.nodup_singleton _
  · exact List.nodup_nil
  · intro v _ hv
    exact absurd hv (List.not_mem_nil v)
  · exact List.not_mem_nil _
  · rfl
  · show (if startId = startId then (0 : WithTop ℝ) else ⊤) = (0 : WithTop ℝ)
    rw [if_pos rfl]
  · exact Or.inr rfl
  · intro v hv
    have hv2 : v ∈ [startId] := hv
    rw [List.mem_singleton] at hv2
    subst hv2
    refine ⟨[v], isPath_singleton graph v, ?_⟩
    show (if v = v then (0 : WithTop ℝ) else ⊤) =
      ((pathCost graph [v] : ℝ) : WithTop ℝ)
    rw [if_pos rfl]
    simp [pathCost]
  · intro v hv
    exact absurd hv (List.not_mem_nil v)
  · intro v hv
    exact absurd hv (List.not_mem_nil v)
  · intro v hv
    have hv2 : v ∈ [startId] := hv
    rw [List.mem_singleton] at hv2
    subst hv2
    show (if v = v then ((h0 : ℝ) : WithTop ℝ) else ⊤) =
      (if v = v then (0 : WithTop ℝ) else ⊤) +
        ((hEst nodes endCoords v : ℝ) : WithTop ℝ)
    rw [if_pos rfl, if_pos rfl, hh0, zero_add]
  · intro u hu
    exact absurd hu (List.not_mem_nil u)
  · intro v u hvu
    exact absurd hvu (Option.noConfusion)
  · intro v u hvu
    exact absurd hvu (Option.noConfusion)
  · intro v hv hvs
    have hv2 : v ∈ [startId] := hv
    rw [List.mem_singleton] at hv2
    exact absurd hv2 hvs
  · intro v hv
    exact absurd hv (List.not_mem_nil v)

/-- Run of the search loop from an invariant state with enough fuel, when
some route to the end node exists: the loop always returns the `previous`
links of a final invariant state in which the end node sits in the open set
with an optimal tentative score — the loop can only have stopped by
selecting the end node. -/
theorem astarLoop_spec (nodes : List CNode) (graph : CGraph)
    (startId endId : String) (endCoords : Coord)
    (hadm : Admissible nodes graph) (hc : CoordsTotal nodes graph)
    (hnd : AdjNodup graph)
    (hroute : ∃ q, IsPath graph startId endId q) :
    ∀ (fuel : Nat) (st : AState),
      AInv nodes graph startId endId endCoords st →
      graphSize graph < st.closedL.length + fuel →
      ∃ stf, AInv nodes graph startId endId endCoords stf ∧
        astarLoop graph nodes endId endCoords fuel st = stf.previous ∧
        endId ∈ stf.openL ∧
        ∀ q, IsPath graph startId endId q →
          stf.gScore endId ≤ ((pathCost graph q : ℝ) : WithTop ℝ) := by
  intro fuel
  induction fuel with
  | zero =>
    intro st inv hfuel
    have hle := closed_length_le graph st.closedL inv.closed_nodup
      inv.closed_mentioned
    omega
  | succ fuel ih =>
    intro st inv hfuel
    obtain ⟨q0, hq0⟩ := hroute
    by_cases hemp : st.openL.isEmpty = true
    · obtain ⟨m, hm, -⟩ := ainv_cover nodes graph startId endId endCoords st
        inv hadm hc q0 endId hq0 inv.end_not_closed
      rw [List.isEmpty_iff] at hemp
      rw [hemp] at hm
      exact absurd hm (List.not_mem_nil m)
    · cases hscan : (scanMin st.fScore st.openL).1 with
      | none =>
        obtain ⟨m, hm, hfm⟩ := ainv_cover nodes graph startId endId endCoords
          st inv hadm hc q0 endId hq0 inv.end_not_closed
        have htop := scanMin_none st.fScore st.openL hscan m hm
        rw [htop] at hfm
        exact absurd hfm (WithTop.not_top_le_coe _)
      | some cur =>
        by_cases hcend : cur = endId
        · obtain ⟨hopen, hopt⟩ := ainv_pop_opt nodes graph startId endId
            endCoords st inv hadm hc cur hscan
          rw [hcend] at hopen hopt
          refine ⟨st, inv, ?_, hopen, hopt⟩
          simp only [astarLoop]
          rw [if_neg hemp, hscan]
          show (if cur = endId then st.previous
            else astarLoop graph nodes endId endCoords fuel
              (astarStep graph nodes endCoords cur st)) = st.previous
          rw [if_pos hcend]
        · obtain ⟨hinv2, hclo2⟩ := ainv_step nodes graph startId endId
            endCoords st inv hadm hc hnd cur hscan hcend
          have hlen : graphSize graph <
              (astarStep graph nodes endCoords cur st).closedL.length + fuel := by
            rw [hclo2, List.length_cons]
            omega
          obtain ⟨stf, hs1, hs2, hs3, hs4⟩ :=
            ih (astarStep graph nodes endCoords cur st) hinv2 hlen
          refine ⟨stf, hs1, ?_, hs3, hs4⟩
          simp only [astarLoop]
          rw [if_neg hemp, hscan]
          show (if cur = endId then st.previous
            else astarLoop graph nodes endId endCoords fuel
              (astarStep graph nodes endCoords cur st)) = stf.previous
          rw [if_neg hcend]
          exact hs2

/-- Walking the `previous` links back from any closed node rebuilds, with
enough fuel, a route from the start whose cost is exactly that node's
`gScore`; the pop-ordering of the links bounds the recursion depth by the
length of the closed suffix behind the node. -/
theorem reconstruct_closed (nodes : List CNode) (graph : CGraph)
    (startId endId : String) (endCoords : Coord) (stf : AState)
    (inv : AInv nodes graph startId endId endCoords stf) :
    ∀ (n : Nat) (u : String) (l1 l2 : List String) (fuel : Nat),
      stf.closedL = l1 ++ u :: l2 → l2.length < n → l2.length < fuel →
      IsPath graph startId u (reconstructPath stf.previous fuel u) ∧
      ((pathCost graph (reconstructPath stf.previous fuel u) : ℝ) : WithTop ℝ)
        = stf.gScore u := by
  intro n
  induction n with
  | zero =>
    intro u l1 l2 fuel hdec hn hf
    omega
  | succ n ih =>
    intro u l1 l2 fuel hdec hn hf
    have hu_closed : u ∈ stf.closedL := by
      rw [hdec]
      exact List.mem_append_right _ (List.mem_cons_self _ _)
    cases fuel with
    | zero => omega
    | succ f =>
      cases hprev : stf.previous u with
      | none =>
        have hus : u = startId := by
          by_contra hune
          exact (inv.prev_some_closed u hu_closed hune) hprev
        have hrp : reconstructPath stf.previous (f + 1) u = [u] := by
          simp only [reconstructPath, hprev]
        rw [hrp]
        constructor
        · rw [hus]
          exact isPath_singleton graph startId
        · rw [hus, inv.g_start]
          simp [pathCost]
      | some w =>
        obtain ⟨hw_closed, ww, hww, hgu⟩ := inv.prev_g u w hprev
        have hw_l2 : w ∈ l2 := inv.prev_order u w hprev l1 l2 hdec
        obtain ⟨l2a, l2b, hsplit⟩ := List.append_of_mem hw_l2
        have hdec2 : stf.closedL = (l1 ++ u :: l2a) ++ w :: l2b := by
          rw [hdec, hsplit]
          simp
        have hlb : l2b.length < l2.length := by
          rw [hsplit, List.length_append, List.length_cons]
          omega
        obtain ⟨hpath, hcost⟩ := ih w (l1 ++ u :: l2a) l2b f hdec2
          (by omega) (by omega)
        have hrp : reconstructPath stf.previous (f + 1) u =
            reconstructPath stf.previous f w ++ [u] := by
          simp only [reconstructPath, hprev]
        rw [hrp]
        constructor
        · exact isPath_append graph startId w u _ hpath (by rw [hww]; rfl)
        · rw [pathCost_append_last graph _ w u hpath.2.1, hww,
            Option.getD_some, hgu, ← hcost]
          norm_cast

/-- The assembled optimality theorem: under admissible weights, resolvable
coordinates, duplicate-free neighbor maps and distinct endpoints that both
carry adjacency entries, `astarPath` returns a minimum-cost route whenever
any route exists. -/
theorem astarPath_optimal (nodes : List CNode) (graph : CGraph)
    (startId endId : String)
    (hne : startId ≠ endId)
    (hnd : AdjNodup graph) (hc : CoordsTotal nodes graph)
    (hadm : Admissible nodes graph)
    (hs : (assocFind graph startId).isSome)
    (he : (assocFind graph endId).isSome)
    (hroute : ∃ q, IsPath graph startId endId q) :
    ∃ p, astarPath nodes graph startId endId = some p ∧
      IsPath graph startId endId p ∧
      ∀ q, IsPath graph startId endId q →
        pathCost graph p ≤ pathCost graph q := by
  obtain ⟨sc, hsc⟩ := Option.isSome_iff_exists.mp (hc startId (Or.inl hs))
  obtain ⟨ec, hec⟩ := Option.isSome_iff_exists.mp (hc endId (Or.inl he))
  have hh0 : heuristicDistance sc ec = hEst nodes ec startId := by
    rw [hEst, hsc, Option.getD_some]
  have hinv0 := ainv_initial nodes graph startId endId ec
    (heuristicDistance sc ec) hs hh0
  have hfuel0 : graphSize graph <
      (initialState startId (heuristicDistance sc ec)).closedL.length +
        (graphSize graph + 1) := by
    show graphSize graph < ([] : List String).length + (graphSize graph + 1)
    simp
  obtain ⟨stf, hinvf, hloop, hopenf, hoptf⟩ := astarLoop_spec nodes graph
    startId endId ec hadm hc hnd hroute (graphSize graph + 1)
    (initialState startId (heuristicDistance sc ec)) hinv0 hfuel0
  cases hprev : stf.previous endId with
  | none =>
    exact absurd hprev (hinvf.prev_some_open endId hopenf (Ne.symm hne))
  | some w =>
    obtain ⟨hwc, ww, hww, hgu⟩ := hinvf.prev_g endId w hprev
    obtain ⟨l1, l2, hdec⟩ := List.append_of_mem hwc
    have hclosed_le := closed_length_le graph stf.closedL hinvf.closed_nodup
      hinvf.closed_mentioned
    have hlen : l2.length < graphSize graph := by
      rw [hdec, List.length_append, List.length_cons] at hclosed_le
      omega
    obtain ⟨hpath, hcost⟩ := reconstruct_closed nodes graph startId endId ec
      stf hinvf (l2.length + 1) w l1 l2 (graphSize graph) hdec (by omega) hlen
    have hrp : reconstructPath stf.previous (graphSize graph + 1) endId =
        reconstructPath stf.previous (graphSize graph) w ++ [endId] := by
      simp only [reconstructPath, hprev]
    have hpath2 : IsPath graph startId endId
        (reconstructPath stf.previous (graphSize graph + 1) endId) := by
      rw [hrp]
      exact isPath_append graph startId w endId _ hpath (by rw [hww]; rfl)
    have hcost2 : ((pathCost graph
          (reconstructPath stf.previous (graphSize graph + 1) endId) : ℝ) :
        WithTop ℝ) = stf.gScore endId := by
      rw [hrp, pathCost_append_last graph _ w endId hpath.2.1, hww,
        Option.getD_some, hgu, ← hcost]
      norm_cast
    have hlen2 : 1 <
        (reconstructPath stf.previous (graphSize graph + 1) endId).length := by
      rw [hrp, List.length_append, List.length_singleton]
      have hnonnil : reconstructPath stf.previous (graphSize graph) w ≠ [] := by
        intro h0
        rw [h0] at hpath
        exact Option.noConfusion hpath.1
      have := List.length_pos.mpr hnonnil
      omega
    refine ⟨reconstructPath stf.previous (graphSize graph + 1) endId, ?_,
      hpath2, ?_⟩
    · unfold astarPath
      rw [hec, hsc]
      simp only
      by_cases hg : (assocFind graph startId).isNone ∨
          (assocFind graph endId).isNone
      · exfalso
        obtain ⟨adjS, hadjS⟩ := Option.isSome_iff_exists.mp hs
        obtain ⟨adjE, hadjE⟩ := Option.isSome_iff_exists.mp he
        rcases hg with hg | hg
        · rw [hadjS] at hg
          exact Bool.noConfusion hg
        · rw [hadjE] at hg
          exact Bool.noConfusion hg
      · rw [if_neg hg, hloop, if_pos ⟨hlen2, hpath2.1⟩]
    · intro q hq
      have h1 := hoptf q hq
      rw [← hcost2] at h1
      exact_mod_cast h1

/-- Characterization of lookups on the two-node instance `exGraphEdge`. -/
theorem exGraphEdge_lookup (a : String) (adjx : Adj)
    (hadj : assocFind exGraphEdge a = some adjx) :
    (a = ("A") ∧ adjx = [(("B"), 5)]) ∨ (a = ("B") ∧ adjx = [(("A"), 5)]) := by
  simp only [exGraphEdge, assocFind_cons, assocFind_nil] at hadj
  by_cases h1 : ("A") = a
  · rw [if_pos h1] at hadj
    injection hadj with h2
    exact Or.inl ⟨h1.symm, h2.symm⟩
  · rw [if_neg h1] at hadj
    by_cases h2 : ("B") = a
    · rw [if_pos h2] at hadj
      injection hadj with h3
      exact Or.inr ⟨h2.symm, h3.symm⟩
    · rw [if_neg h2] at hadj
      exact absurd hadj (Option.noConfusion)

/-- The two-node instance has duplicate-free neighbor maps. -/
theorem adjNodup_exGraphEdge : AdjNodup exGraphEdge := by
  intro a adjx hadj
  rcases exGraphEdge_lookup a adjx hadj with ⟨-, h⟩ | ⟨-, h⟩ <;> rw [h] <;>
    decide

/-- The two-node instance only mentions its two node ids. -/
theorem mentioned_exGraphEdge (id : String) (h : MentionedId exGraphEdge id) :
    id = ("A") ∨ id = ("B") := by
  rcases h with h | ⟨cur, adjx, w, hadj, hmem⟩
  · obtain ⟨adjx, hadjx⟩ := Option.isSome_iff_exists.mp h
    rcases exGraphEdge_lookup id adjx hadjx with ⟨h1, -⟩ | ⟨h1, -⟩
    · exact Or.inl h1
    · exact Or.inr h1
  · rcases exGraphEdge_lookup cur adjx hadj with ⟨-, h2⟩ | ⟨-, h2⟩
    · rw [h2, List.mem_singleton] at hmem
      exact Or.inr (congrArg Prod.fst hmem)
    · rw [h2, List.mem_singleton] at hmem
      exact Or.inl (congrArg Prod.fst hmem)

/-- Every id the two-node instance mentions resolves coordinates. -/
theorem coordsTotal_exGraphEdge : CoordsTotal exNodesTwo exGraphEdge := by
  intro id hid
  rcases mentioned_exGraphEdge id hid with h | h <;> rw [h] <;> rfl

/-- The 3-4-5 distance between the two example nodes, left to right. -/
theorem heurAB : heuristicDistance ⟨0, 0⟩ ⟨3, 4⟩ = 5 := by
  show Real.sqrt ((3 - 0) * (3 - 0) + (4 - 0) * (4 - 0)) = 5
  exact sqrt_eval (by norm_num) (by norm_num)

/-- The 3-4-5 distance between the two example nodes, right to left. -/
theorem heurBA : heuristicDistance ⟨3, 4⟩ ⟨0, 0⟩ = 5 := by
  show Real.sqrt ((0 - 3) * (0 - 3) + (0 - 4) * (0 - 4)) = 5
  exact sqrt_eval (by norm_num) (by norm_num)

/-- The two-node instance is admissible: both directed weights equal the
straight-line distance 5. -/
theorem admissible_exGraphEdge : Admissible exNodesTwo exGraphEdge := by
  intro a adjx hadj e he ca ce hca hce
  rcases exGraphEdge_lookup a adjx hadj with ⟨h1, h2⟩ | ⟨h1, h2⟩
  · rw [h2, List.mem_singleton] at he
    have he1 : e.1 = ("B") := congrArg Prod.fst he
    have he2 : e.2 = (5 : ℝ) := congrArg Prod.snd he
    rw [h1] at hca
    rw [he1] at hce
    have hca2 : ca = ⟨0, 0⟩ := by
      have h3 : some (⟨0, 0⟩ : Coord) = some ca := by rw [← hca]; rfl
      injection h3 with h4
      exact h4.symm
    have hce2 : ce = ⟨3, 4⟩ := by
      have h3 : some (⟨3, 4⟩ : Coord) = some ce := by rw [← hce]; rfl
      injection h3 with h4
      exact h4.symm
    rw [hca2, hce2, he2, heurAB]
  · rw [h2, List.mem_singleton] at he
    have he1 : e.1 = ("A") := congrArg Prod.fst he
    have he2 : e.2 = (5 : ℝ) := congrArg Prod.snd he
    rw [h1] at hca
    rw [he1] at hce
    have hca2 : ca = ⟨3, 4⟩ := by
      have h3 : some (⟨3, 4⟩ : Coord) = some ca := by rw [← hca]; rfl
      injection h3 with h4
      exact h4.symm
    have hce2 : ce = ⟨0, 0⟩ := by
      have h3 : some (⟨0, 0⟩ : Coord) = some ce := by rw [← hce]; rfl
      injection h3 with h4
      exact h4.symm
    rw [hca2, hce2, he2, heurBA]

/-- The route along the single edge of the two-node instance. -/
theorem route_exGraphEdge : IsPath exGraphEdge ("A") ("B") [("A"), ("B")] :=
  ⟨rfl, rfl, by rfl, trivial⟩

/-- C1 (corrected): with every edge weight at least the straight-line
distance between its endpoints' (resolvable) positions and duplicate-free
neighbor maps, for any pair of distinct start and end nodes that both carry
adjacency entries and between which a route exists, `astarPath` returns a
route whose total cost is the minimum over all routes. The original claim
without the distinctness condition fails: for equal endpoints the trivial
route exists yet `null` is returned. -/
theorem astarPath_admissible_min_cost (nodes : List CNode) (graph : CGraph)
    (startId endId : String)
    (hne : startId ≠ endId)
    (hnd : AdjNodup graph) (hc : CoordsTotal nodes graph)
    (hadm : Admissible nodes graph)
    (hs : (assocFind graph startId).isSome)
    (he : (assocFind graph endId).isSome)
    (hroute : ∃ q, IsPath graph startId endId q) :
    ∃ p, astarPath nodes graph startId endId = some p ∧
      IsPath graph startId endId p ∧
      ∀ q, IsPath graph startId endId q →
        pathCost graph p ≤ pathCost graph q :=
  astarPath_optimal nodes graph startId endId hne hnd hc hadm hs he hroute

/-- C1 witness: on the admissible two-node instance the theorem applies and
yields a minimum-cost route from `A` to `B`. -/
theorem astarPath_admissible_min_cost_witness :
    ∃ p, astarPath exNodesTwo exGraphEdge ("A") ("B") = some p ∧
      IsPath exGraphEdge ("A") ("B") p ∧
      ∀ q, IsPath exGraphEdge ("A") ("B") q →
        pathCost exGraphEdge p ≤ pathCost exGraphEdge q :=
  astarPath_admissible_min_cost exNodesTwo exGraphEdge ("A") ("B")
    (by decide) adjNodup_exGraphEdge coordsTotal_exGraphEdge
    admissible_exGraphEdge (by rfl) (by rfl)
    ⟨[("A"), ("B")], route_exGraphEdge⟩

/-- C1 counterexample to the original claim: the single-node graph satisfies
the admissibility premise vacuously and the trivial route from `A` to itself
exists, yet the query returns `null` and hence no minimum-cost route. -/
theorem astarPath_admissible_min_cost_cex :
    Admissible exNodesSelf exGraphSelf ∧
    IsPath exGraphSelf ("A") ("A") [("A")] ∧
    astarPath exNodesSelf exGraphSelf ("A") ("A") = none := by
  refine ⟨?_, isPath_singleton exGraphSelf ("A"),
    astarPath_self exNodesSelf exGraphSelf ("A") (by rfl) (by rfl)⟩
  intro a adjx hadj e he ca ce hca hce
  simp only [exGraphSelf, assocFind_cons, assocFind_nil] at hadj
  by_cases h1 : ("A") = a
  · rw [if_pos h1] at hadj
    injection hadj with h2
    rw [← h2] at he
    exact absurd he (List.not_mem_nil e)
  · rw [if_neg h1] at hadj
    exact absurd hadj (Option.noConfusion)

end CampusConnect

end
